import Mathlib

/-!
Verification of the cognitive-memory core: a shallow embedding of the
context-retrieval engine (packages/agents/context_manager.py), the
preference upsert (packages/agents/persona_agent.py), the dynamic tool
registry (packages/agents/tool_registry.py) and hybrid search
(packages/cognitive/graph.py), together with proofs of the specified
properties.

Python floats are idealized as real numbers; embedding vectors are lists of
rationals.  Neo4j result rows are modelled as lists; the store-side Cypher
queries are translated into pure functions over the persona's memory list.
-/

namespace DeskAI

/-! ### Vectors and cosine similarity -/

/-- Dot product of two embedding vectors (np.dot on equal-length vectors). -/
def dotQ (a b : List ℚ) : ℚ := (List.zipWith (· * ·) a b).sum

/-- Squared Euclidean norm, so that np.linalg.norm v = Real.sqrt (normSq v). -/
def normSq (v : List ℚ) : ℚ := dotQ v v

/-- Cosine similarity dot(a,b) / (norm(a) * norm(b)), as computed both by
numpy in the full-scan fallback and by gds.similarity.cosine in Cypher. -/
noncomputable def cosineSim (a b : List ℚ) : ℝ :=
  ((dotQ a b : ℚ) : ℝ) /
    (Real.sqrt ((normSq a : ℚ) : ℝ) * Real.sqrt ((normSq b : ℚ) : ℝ))

/-! ### Stable descending orders used for ranking

Python's list.sort(key=..., reverse=True) is a stable descending sort, which
coincides with List.insertionSort under the relation "my key is at least
yours"; Cypher ORDER BY ... DESC is modelled by the same sort. -/

/-- Descending comparison by a real-valued key. -/
def descR {α : Type} (f : α → ℝ) (a b : α) : Prop := f b ≤ f a

instance {α : Type} (f : α → ℝ) : IsTotal α (descR f) :=
  ⟨fun a b => le_total (f b) (f a)⟩

instance {α : Type} (f : α → ℝ) : IsTrans α (descR f) :=
  ⟨fun _ _ _ h₁ h₂ => le_trans h₂ h₁⟩

noncomputable instance {α : Type} (f : α → ℝ) : DecidableRel (descR f) :=
  fun a b => Real.decidableLE (f b) (f a)

/-- Descending comparison by a natural-number key (timestamps). -/
def descN {α : Type} (f : α → ℕ) (a b : α) : Prop := f b ≤ f a

instance {α : Type} (f : α → ℕ) : IsTotal α (descN f) :=
  ⟨fun a b => le_total (f b) (f a)⟩

instance {α : Type} (f : α → ℕ) : IsTrans α (descN f) :=
  ⟨fun _ _ _ h₁ h₂ => le_trans h₂ h₁⟩

instance {α : Type} (f : α → ℕ) : DecidableRel (descN f) :=
  fun a b => Nat.decLe (f b) (f a)

/-! ### Memory nodes -/

/-- A Memory node attached to the persona by a HAS_MEMORY edge.  Fields model
the node's property map: a field is none when the property is absent.
created_at is an abstract timestamp (ISO strings are totally ordered). -/
structure Memory where
  mid : String
  mname : Option String := none
  content : Option String := none
  embedding : Option (List ℚ) := none
  created_at : ℕ := 0
deriving DecidableEq, Repr

/-- Python truthiness of mem.get("embedding"): present and non-empty. -/
def embTruthy : Option (List ℚ) → Bool
  | none => false
  | some v => !v.isEmpty

/-- Text embedded for a memory without a stored embedding:
mem.get("content", mem.get("name", "")). -/
def embedText (m : Memory) : String := m.content.getD (m.mname.getD "")

/-- _vector_search_memories: the Cypher query keeps persona memories whose
embedding IS NOT NULL, scores them with gds.similarity.cosine(m.embedding,
query), keeps score > 0.5, orders by score descending, LIMIT limit; the
second component is the separate count query over all persona memories. -/
noncomputable def vectorSearchMemories (qe : List ℚ) (limit : ℕ)
    (mems : List Memory) : List (Memory × ℝ) × ℕ :=
  let cands := mems.filterMap fun m =>
    m.embedding.map fun e => (m, cosineSim e qe)
  let hits := cands.filter fun p => decide ((1 : ℝ) / 2 < p.2)
  (((hits.insertionSort (descR Prod.snd)).take limit), mems.length)

/-- _get_recent_memories: persona memories ORDER BY created_at DESC LIMIT
limit. -/
def getRecentMemories (limit : ℕ) (mems : List Memory) : List Memory :=
  (mems.insertionSort (descN Memory.created_at)).take limit

/-- Scoring step of _fallback_memory_search for one memory: use the stored
embedding when truthy, else embed the content on demand (recording a
write-back of the computed embedding); an embedding failure scores 0.0 and
the memory is kept. -/
noncomputable def fallbackStep (embed : String → Except Unit (List ℚ))
    (qe : List ℚ) (m : Memory) : (Memory × ℝ) × List (String × List ℚ) :=
  if embTruthy m.embedding then
    ((m, cosineSim qe (m.embedding.getD [])), [])
  else
    match embed (embedText m) with
    | .ok e => ((m, cosineSim qe e), [(m.mid, e)])
    | .error _ => ((m, 0), [])

/-- _fallback_memory_search: load all persona memories, score each with
fallbackStep, stable-sort by score descending, return the top limit together
with the total count; also returns the list of embeddings written back to
the store for memories that lacked one. -/
noncomputable def fallbackMemorySearch (embed : String → Except Unit (List ℚ))
    (qe : List ℚ) (limit : ℕ) (mems : List Memory) :
    (List (Memory × ℝ) × ℕ) × List (String × List ℚ) :=
  if mems.isEmpty then (([], 0), [])
  else
    let scored := mems.map fun m => (fallbackStep embed qe m).1
    let wbs := (mems.map fun m => (fallbackStep embed qe m).2).flatten
    (((scored.insertionSort (descR Prod.snd)).take limit, mems.length), wbs)

/-- _store_memory_embedding for one write-back: SET m.embedding on every
node whose elementId matches. -/
def applyWb (mems : List Memory) (wb : String × List ℚ) : List Memory :=
  mems.map fun m => if m.mid = wb.1 then { m with embedding := some wb.2 } else m

/-- Sequential application of all write-backs performed by a fallback pass. -/
def applyWritebacks (mems : List Memory) (wbs : List (String × List ℚ)) :
    List Memory :=
  wbs.foldl applyWb mems

/-- Which branch of the _get_relevant_memories cascade produced the result. -/
inductive Strategy where
  | noPersona
  | recency
  | vector
  | fallback
deriving DecidableEq, Repr

/-- Result of _get_relevant_memories: the memory list (with the relevance
score attached when one was computed), the memories_considered count, the
strategy that produced it, and the embeddings written back to the store. -/
structure RetrievalOut where
  memories : List (Memory × Option ℝ)
  considered : ℕ
  strategy : Strategy
  writebacks : List (String × List ℚ)

/-- _get_relevant_memories: embed the query (failure falls back to recent
memories with considered 0); try the indexed vector search (vectorIndexOk
false models the query raising, e.g. a missing index); use its results when
non-empty; otherwise run the full Python-side scan. -/
noncomputable def getRelevantMemories (embed : String → Except Unit (List ℚ))
    (vectorIndexOk : Bool) (personaOk : Bool) (mems : List Memory)
    (query : String) (limit : ℕ) : RetrievalOut :=
  if !personaOk then ⟨[], 0, .noPersona, []⟩
  else
    match embed query with
    | .error _ =>
        ⟨(getRecentMemories limit mems).map fun m => (m, none), 0, .recency, []⟩
    | .ok qe =>
        if vectorIndexOk then
          let vres := vectorSearchMemories qe limit mems
          if vres.1.isEmpty then
            let fres := fallbackMemorySearch embed qe limit mems
            ⟨fres.1.1.map fun p => (p.1, some p.2), fres.1.2, .fallback, fres.2⟩
          else
            ⟨vres.1.map fun p => (p.1, some p.2), vres.2, .vector, []⟩
        else
          let fres := fallbackMemorySearch embed qe limit mems
          ⟨fres.1.1.map fun p => (p.1, some p.2), fres.1.2, .fallback, fres.2⟩

/-! ### Preference upsert (persona_agent.py, _apply_persona_updates) -/

/-- A Preference node.  observation_count is none while the property has
never been set on the node. -/
structure PrefNode where
  pname : String
  value : String := ""
  category : String := "general"
  confidence : ℚ := 1/2
  observation_count : Option ℕ := none
  created_at : String := ""
deriving DecidableEq, Repr

/-- The MERGE (pr:Preference {name}) statement: when at least one node with
the name exists, ON MATCH SET updates value, confidence and
observation_count = coalesce(observation_count, 0) + 1 on every matched
node; otherwise ON CREATE SET initializes value, category, confidence and
created_at -- and does not set observation_count. -/
def upsertPreference (prefs : List PrefNode) (name value category : String)
    (confidence : ℚ) (now : String) : List PrefNode :=
  if prefs.any fun p => p.pname = name then
    prefs.map fun p =>
      if p.pname = name then
        { p with
          value := value
          confidence := confidence
          observation_count := some (p.observation_count.getD 0 + 1) }
      else p
  else
    prefs ++ [{ pname := name, value := value, category := category,
                confidence := confidence, observation_count := none,
                created_at := now }]

/-! ### Dynamic tool registry (tool_registry.py) -/

/-- A tool definition (ToolDef); only fields relevant to the registry index
are modelled. -/
structure Tool where
  name : String
  description : String := ""
  tier : ℕ := 2
  category : String := "general"
  enabled : Bool := true
deriving DecidableEq, Repr

/-- A definition file in the scan directory: basename (used in error
messages), full path (the key of the hash table) and raw content.  The md5
content hash is modelled by the content itself. -/
structure MFile where
  fname : String
  path : String
  content : String
deriving DecidableEq, Repr

/-- The structured diff returned by refresh_tools. -/
structure Changes where
  added : List String := []
  updated : List String := []
  removed : List String := []
  errors : List String := []
deriving DecidableEq, Repr

/-- Registry state: the tools index and the last-seen file hashes, both
insertion-ordered string-keyed dictionaries. -/
structure RegState where
  tools : List (String × Tool) := []
  fileHashes : List (String × String) := []
deriving DecidableEq, Repr

/-- Python dict assignment d[k] = v: update in place when the key exists,
append otherwise. -/
def dictInsert {τ : Type} (d : List (String × τ)) (k : String) (v : τ) :
    List (String × τ) :=
  if d.any fun p => p.1 = k then
    d.map fun p => if p.1 = k then (k, v) else p
  else d ++ [(k, v)]

/-- Python dict lookup d.get(k). -/
def dictGet {τ : Type} (d : List (String × τ)) (k : String) : Option τ :=
  (d.find? fun p => p.1 = k).map Prod.snd

/-- Upserting one parsed tool during a changed-file scan: record the name as
updated when it is already indexed, as added otherwise; index it; mark it
seen this pass. -/
def processTool (acc : RegState × Changes × List String) (t : Tool) :
    RegState × Changes × List String :=
  let (st, ch, seen) := acc
  let ch' :=
    if st.tools.any fun p => p.1 = t.name then
      { ch with updated := ch.updated ++ [t.name] }
    else
      { ch with added := ch.added ++ [t.name] }
  ({ st with tools := dictInsert st.tools t.name t }, ch', seen ++ [t.name])

/-- Per-file step of refresh_tools.  parse models json.load followed by
ToolDef.from_dict over the whole file; its failure is the per-file caught
exception, recorded as "basename: reason".  A changed (or new) file is
parsed and its tools upserted before its hash is stored; an unchanged file
is re-parsed only to mark its tool names as seen. -/
def processFile (parse : String → Except String (List Tool))
    (acc : RegState × Changes × List String) (f : MFile) :
    RegState × Changes × List String :=
  let (st, ch, seen) := acc
  let h := f.content
  if dictGet st.fileHashes f.path ≠ some h then
    match parse f.content with
    | .error e => (st, { ch with errors := ch.errors ++ [f.fname ++ ": " ++ e] }, seen)
    | .ok ts =>
        let (st', ch', seen') := ts.foldl processTool (st, ch, seen)
        ({ st' with fileHashes := dictInsert st'.fileHashes f.path h }, ch', seen')
  else
    match parse f.content with
    | .error e => (st, { ch with errors := ch.errors ++ [f.fname ++ ": " ++ e] }, seen)
    | .ok ts => (st, ch, seen ++ ts.map Tool.name)

/-- refresh_tools: scan every definition file, then delete every indexed
tool name that was not seen this pass, reporting it as removed. -/
def refreshTools (parse : String → Except String (List Tool))
    (files : List MFile) (st : RegState) : RegState × Changes :=
  let (st1, ch, seen) := files.foldl (processFile parse) (st, {}, [])
  let removedNames := (st1.tools.map Prod.fst).filter fun n => decide (n ∉ seen)
  ({ st1 with tools := st1.tools.filter fun p => decide (p.1 ∈ seen) },
   { ch with removed := ch.removed ++ removedNames })

/-- register_tool with save=False: an in-memory-only index update. -/
def registerTool (st : RegState) (t : Tool) : RegState :=
  { st with tools := dictInsert st.tools t.name t }

/-- get_tool. -/
def getTool (st : RegState) (name : String) : Option Tool :=
  dictGet st.tools name

/-! ### Hybrid search (graph.py, hybrid_search)

The two index-backed retrievals are opaque store calls; hybrid_search is
parameterized by them as functions of the requested row limit, mirroring
vector_search(limit*2, min_score=0.5) and the full-text query with LIMIT
limit*2.  Each hit is a node (with its element id) together with the score
reported by the store. -/

/-- A node returned by a store query, identified by its element id. -/
structure GNode where
  nid : String
  gname : String := ""
deriving DecidableEq, Repr

/-- Combined-score entry kept per node id while merging the two result
sets. -/
structure HEntry where
  node : GNode
  textScore : ℝ
  vectorScore : ℝ
  combinedScore : ℝ

/-- hybrid_search: fetch 2*limit vector candidates and 2*limit full-text
candidates; key the text rows by node id; give every vector candidate the
combined score vectorWeight*vectorScore + textWeight*textScore (text score 0
when the id has no text row); append each text-only row with vector score 0;
stable-sort the entries by combined score descending and truncate to
limit. -/
noncomputable def hybridSearch (vq : ℕ → List (GNode × ℝ))
    (tq : ℕ → List (GNode × ℝ)) (limit : ℕ) (textWeight vectorWeight : ℝ) :
    List HEntry :=
  let vres := vq (limit * 2)
  let tres := tq (limit * 2)
  let tdict := tres.foldl (fun d p => dictInsert d p.1.nid p) []
  let combined := vres.foldl
    (fun c p =>
      dictInsert c p.1.nid
        ⟨p.1, ((dictGet tdict p.1.nid).map Prod.snd).getD 0, p.2,
         vectorWeight * p.2
           + textWeight * (((dictGet tdict p.1.nid).map Prod.snd).getD 0)⟩)
    []
  let combined := tdict.foldl
    (fun c kp =>
      if c.any fun q => q.1 = kp.1 then c
      else c ++ [(kp.1, ⟨kp.2.1, kp.2.2, 0, textWeight * kp.2.2⟩)])
    combined
  (((combined.map Prod.snd).insertionSort (descR HEntry.combinedScore)).take limit)

/-! ### Prompt rendering (context_manager.py, RetrievedContext) -/

/-- Python string slicing s[:n], by code point. -/
def pyTake (s : String) (n : ℕ) : String := String.mk (s.toList.take n)

/-- The persona's core-identity property map; a field is none when the key
is absent. -/
structure CoreIdentity where
  iname : Option String := none
  tagline : Option String := none
  personality_summary : Option String := none
  core_values : List String := []
  communication_style : Option String := none
deriving DecidableEq, Repr

/-- A trait row as rendered (name and description keys). -/
structure TraitInfo where
  tname : Option String := none
  description : Option String := none
deriving DecidableEq, Repr

/-- A memory row as rendered (content key). -/
structure MemoryInfo where
  content : Option String := none
deriving DecidableEq, Repr

/-- A preference row as rendered (name and value keys). -/
structure PrefInfo where
  pname : Option String := none
  value : Option String := none
deriving DecidableEq, Repr

/-- The caller-supplied project context (name and description keys). -/
structure ProjCtx where
  jname : Option String := none
  description : Option String := none
deriving DecidableEq, Repr

/-- The user context (name key). -/
structure UserCtx where
  uname : Option String := none
deriving DecidableEq, Repr

/-- RetrievedContext, restricted to the fields to_system_prompt reads. -/
structure RetrievedContext where
  core_identity : CoreIdentity := {}
  traits : List TraitInfo := []
  memories : List MemoryInfo := []
  preferences : List PrefInfo := []
  project_context : Option ProjCtx := none
  user_context : Option UserCtx := none
deriving DecidableEq, Repr

/-- The greeting, personality-summary, core-values and communication-style
sections. -/
def identitySections (ctx : RetrievedContext) : List String :=
  let name := ctx.core_identity.iname.getD "Assistant"
  let tagline := ctx.core_identity.tagline.getD "your helpful companion"
  ["You are " ++ name ++ ", " ++ tagline ++ "."]
    ++ (match ctx.core_identity.personality_summary with
        | some s => if s = "" then [] else [s]
        | none => [])
    ++ (if ctx.core_identity.core_values.isEmpty then []
        else ["Core values: " ++ String.intercalate ", " ctx.core_identity.core_values])
    ++ ["Communication style: " ++ ctx.core_identity.communication_style.getD "conversational"]

/-- The personality-traits section: top 5 traits as name: description
bullets, omitted when there are no traits. -/
def traitSections (ctx : RetrievedContext) : List String :=
  if ctx.traits.isEmpty then []
  else
    ["Personality traits:\n" ++ String.intercalate "\n"
      ((ctx.traits.take 5).map fun t =>
        "- " ++ t.tname.getD "Unknown" ++ ": " ++ t.description.getD "")]

/-- The relevant-memories section: top 3 memories with content truncated to
200 characters, omitted when there are no memories. -/
def memorySections (ctx : RetrievedContext) : List String :=
  if ctx.memories.isEmpty then []
  else
    ["Relevant memories/observations:\n" ++ String.intercalate "\n"
      ((ctx.memories.take 3).map fun m =>
        "- " ++ pyTake (m.content.getD "") 200)]

/-- The user-preferences section: top 5 preferences as name: value bullets,
omitted when there are no preferences. -/
def preferenceSections (ctx : RetrievedContext) : List String :=
  if ctx.preferences.isEmpty then []
  else
    ["User preferences:\n" ++ String.intercalate "\n"
      ((ctx.preferences.take 5).map fun p =>
        "- " ++ p.pname.getD "" ++ ": " ++ p.value.getD "")]

/-- The assisted-user line, present when a user context was retrieved. -/
def userSections (ctx : RetrievedContext) : List String :=
  match ctx.user_context with
  | some u => ["You are assisting " ++ u.uname.getD "the user" ++ "."]
  | none => []

/-- The project-context block (name plus description truncated to 200
characters), present when a project context was supplied. -/
def projectSections (ctx : RetrievedContext) : List String :=
  match ctx.project_context with
  | some p =>
      ["Current project: " ++ p.jname.getD "Unknown" ++ "\n"
        ++ pyTake (p.description.getD "") 200]
  | none => []

/-- The closing first-person reminder naming the persona. -/
def reminderSection (ctx : RetrievedContext) : String :=
  "\nRemember: You ARE " ++ ctx.core_identity.iname.getD "Assistant"
    ++ ". Speak authentically as yourself."

/-- to_system_prompt: the sections in source order, joined by blank
lines. -/
def toSystemPrompt (ctx : RetrievedContext) : String :=
  String.intercalate "\n\n"
    (identitySections ctx ++ traitSections ctx ++ memorySections ctx
      ++ preferenceSections ctx ++ userSections ctx ++ projectSections ctx
      ++ [reminderSection ctx])

/-! ## Theorems -/

/-- Upserting a preference whose name matches no existing node appends a
fresh node whose observation_count is unset (ON CREATE does not touch
it). -/
theorem upsertPreference_create (prefs : List PrefNode)
    (name v c : String) (k : ℚ) (n : String)
    (h : ∀ p ∈ prefs, p.pname ≠ name) :
    upsertPreference prefs name v c k n
      = prefs ++ [⟨name, v, c, k, none, n⟩] := by
  unfold upsertPreference
  have hany : (prefs.any fun p => decide (p.pname = name)) = false := by
    simp only [List.any_eq_false, decide_eq_true_eq]
    exact h
  rw [hany]
  simp

/-- Upserting a preference that matches exactly the last node updates its
value and confidence and bumps observation_count by coalesce(·,0)+1. -/
theorem upsertPreference_match_last (prefs : List PrefNode) (q : PrefNode)
    (name v c : String) (k : ℚ) (n : String)
    (hq : q.pname = name) (h : ∀ p ∈ prefs, p.pname ≠ name) :
    upsertPreference (prefs ++ [q]) name v c k n
      = prefs ++ [{ q with
          value := v
          confidence := k
          observation_count := some (q.observation_count.getD 0 + 1) }] := by
  unfold upsertPreference
  have hany : ((prefs ++ [q]).any fun p => decide (p.pname = name)) = true := by
    simp [hq]
  rw [hany]
  simp only [if_true, List.map_append, List.map_cons, List.map_nil]
  have hmap : (prefs.map fun p =>
      if p.pname = name then
        { p with
          value := v
          confidence := k
          observation_count := some (p.observation_count.getD 0 + 1) }
      else p) = prefs := by
    conv_rhs => rw [← List.map_id prefs]
    apply List.map_congr_left
    intro p hp
    simp [if_neg (h p hp)]
  rw [hmap, if_pos hq]

/-- Claim C3, counterexample: upserting the preference "theme" twice with
different values yields one node whose value is the second value, but whose
observation_count is 1, not 2 — the Cypher ON CREATE clause never
initializes observation_count, so the first observation is not counted. -/
theorem preference_upsert_count_counterexample :
    (upsertPreference
        (upsertPreference [] "theme" "dark" "general" 0 "t1")
        "theme" "light" "general" 1 "t2")
      = [{ pname := "theme", value := "light", category := "general",
           confidence := 1, observation_count := some 1, created_at := "t1" }]
    ∧ ¬ ∃ p ∈ (upsertPreference
        (upsertPreference [] "theme" "dark" "general" 0 "t1")
        "theme" "light" "general" 1 "t2"),
          p.observation_count = some 2 := by
  constructor
  · decide
  · decide

/-- Claim C3 as amended: upserting a Preference by name twice with different
values yields exactly one node with that name, whose value (and confidence)
come from the second call and whose observation_count is 1: the counter is
incremented only on re-observation, and node creation does not initialize
it. -/
theorem preference_upsert_twice (prefs : List PrefNode)
    (name v₁ v₂ c₁ c₂ : String) (k₁ k₂ : ℚ) (n₁ n₂ : String)
    (h : ∀ p ∈ prefs, p.pname ≠ name) :
    (upsertPreference (upsertPreference prefs name v₁ c₁ k₁ n₁)
        name v₂ c₂ k₂ n₂).filter (fun p => decide (p.pname = name))
      = [{ pname := name, value := v₂, category := c₁, confidence := k₂,
           observation_count := some 1, created_at := n₁ }]
    ∧ (upsertPreference (upsertPreference prefs name v₁ c₁ k₁ n₁)
        name v₂ c₂ k₂ n₂).length = prefs.length + 1 := by
  rw [upsertPreference_create prefs name v₁ c₁ k₁ n₁ h,
    upsertPreference_match_last prefs _ name v₂ c₂ k₂ n₂ rfl h]
  refine ⟨?_, by simp⟩
  rw [List.filter_append]
  have hf1 : prefs.filter (fun p => decide (p.pname = name)) = [] := by
    rw [List.filter_eq_nil_iff]
    intro p hp
    simpa using h p hp
  rw [hf1]
  simp

/-- Witness for the amended C3 theorem at a concrete store. -/
theorem preference_upsert_twice_witness :
    (∀ p ∈ ([⟨"tone", "warm", "general", 1, none, "t0"⟩] : List PrefNode),
        p.pname ≠ "theme")
    ∧ (upsertPreference
          (upsertPreference [⟨"tone", "warm", "general", 1, none, "t0"⟩]
            "theme" "dark" "general" 0 "t1")
          "theme" "light" "general" 1 "t2").filter
            (fun p => decide (p.pname = "theme"))
        = [{ pname := "theme", value := "light", category := "general",
             confidence := 1, observation_count := some 1,
             created_at := "t1" }] :=
  ⟨by decide,
   (preference_upsert_twice [⟨"tone", "warm", "general", 1, none, "t0"⟩]
      "theme" "dark" "light" "general" "general" 0 1 "t1" "t2"
      (by decide)).1⟩

/-- The identity sections depend only on core_identity. -/
theorem identitySections_congr (c₁ c₂ : RetrievedContext)
    (h : c₂.core_identity = c₁.core_identity) :
    identitySections c₂ = identitySections c₁ := by
  unfold identitySections
  rw [h]

/-- The closing reminder depends only on core_identity. -/
theorem reminderSection_congr (c₁ c₂ : RetrievedContext)
    (h : c₂.core_identity = c₁.core_identity) :
    reminderSection c₂ = reminderSection c₁ := by
  unfold reminderSection
  rw [h]

/-- The assisted-user section depends only on user_context. -/
theorem userSections_congr (c₁ c₂ : RetrievedContext)
    (h : c₂.user_context = c₁.user_context) :
    userSections c₂ = userSections c₁ := by
  unfold userSections
  rw [h]

/-- Only the first 5 traits influence the traits section. -/
theorem traitSections_take (c₁ c₂ : RetrievedContext)
    (h : c₂.traits = c₁.traits.take 5) :
    traitSections c₂ = traitSections c₁ := by
  unfold traitSections
  rw [h]
  cases hc : c₁.traits with
  | nil => simp
  | cons a l => simp [List.take_take]

/-- Only the first 5 preferences influence the preferences section. -/
theorem preferenceSections_take (c₁ c₂ : RetrievedContext)
    (h : c₂.preferences = c₁.preferences.take 5) :
    preferenceSections c₂ = preferenceSections c₁ := by
  unfold preferenceSections
  rw [h]
  cases hc : c₁.preferences with
  | nil => simp
  | cons a l => simp [List.take_take]

/-- Taking a string prefix twice with the same bound is idempotent. -/
theorem pyTake_pyTake (s : String) (n : ℕ) :
    pyTake (pyTake s n) n = pyTake s n := by
  unfold pyTake
  rw [show (String.mk (s.toList.take n)).toList = s.toList.take n from rfl,
    List.take_take, min_self]

/-- Only the first 3 memories, each truncated to its first 200 content
characters, influence the memories section. -/
theorem memorySections_cap (c₁ c₂ : RetrievedContext)
    (h : c₂.memories = (c₁.memories.take 3).map fun m =>
      ⟨some (pyTake (m.content.getD "") 200)⟩) :
    memorySections c₂ = memorySections c₁ := by
  unfold memorySections
  rw [h]
  cases hc : c₁.memories with
  | nil => simp
  | cons a l =>
    simp [List.take_take, List.map_take, pyTake_pyTake,
      Function.comp_def]

/-- Only the first 200 description characters influence the project
section. -/
theorem projectSections_cap (c₁ c₂ : RetrievedContext)
    (h : c₂.project_context = c₁.project_context.map fun p =>
      { p with description := some (pyTake (p.description.getD "") 200) }) :
    projectSections c₂ = projectSections c₁ := by
  unfold projectSections
  rw [h]
  cases hc : c₁.project_context with
  | none => simp
  | some p => simp [pyTake_pyTake]

/-- The per-field caps the rendering contract promises: first 5 traits,
first 3 memories with 200-character content, first 5 preferences,
200-character project description. -/
def capCtx (c : RetrievedContext) : RetrievedContext :=
  { c with
    traits := c.traits.take 5
    memories := (c.memories.take 3).map fun m =>
      ⟨some (pyTake (m.content.getD "") 200)⟩
    preferences := c.preferences.take 5
    project_context := c.project_context.map fun p =>
      { p with
        description := some (pyTake (p.description.getD "") 200) } }

/-- Claim C9: every empty bucket is omitted entirely — an empty traits,
memories or preferences list and an absent user or project context each
contribute no section at all, and the prompt is then exactly the join of
the remaining sections (in particular, with zero memories the prompt
contains no memories heading); and in general the prompt only ever shows
the first 5 traits, the first 3 memories truncated to 200 content
characters, the first 5 preferences, and the first 200 characters of the
project description. -/
theorem to_system_prompt_rendering (ctx ctx' : RetrievedContext) :
    (ctx.traits = [] → traitSections ctx = []
      ∧ toSystemPrompt ctx
        = String.intercalate "\n\n"
            (identitySections ctx ++ memorySections ctx
              ++ preferenceSections ctx ++ userSections ctx
              ++ projectSections ctx ++ [reminderSection ctx]))
    ∧ (ctx.memories = [] → memorySections ctx = []
      ∧ toSystemPrompt ctx
        = String.intercalate "\n\n"
            (identitySections ctx ++ traitSections ctx
              ++ preferenceSections ctx ++ userSections ctx
              ++ projectSections ctx ++ [reminderSection ctx]))
    ∧ (ctx.preferences = [] → preferenceSections ctx = []
      ∧ toSystemPrompt ctx
        = String.intercalate "\n\n"
            (identitySections ctx ++ traitSections ctx ++ memorySections ctx
              ++ userSections ctx ++ projectSections ctx
              ++ [reminderSection ctx]))
    ∧ (ctx.user_context = none → userSections ctx = []
      ∧ toSystemPrompt ctx
        = String.intercalate "\n\n"
            (identitySections ctx ++ traitSections ctx ++ memorySections ctx
              ++ preferenceSections ctx ++ projectSections ctx
              ++ [reminderSection ctx]))
    ∧ (ctx.project_context = none → projectSections ctx = []
      ∧ toSystemPrompt ctx
        = String.intercalate "\n\n"
            (identitySections ctx ++ traitSections ctx ++ memorySections ctx
              ++ preferenceSections ctx ++ userSections ctx
              ++ [reminderSection ctx]))
    ∧ toSystemPrompt ctx' = toSystemPrompt (capCtx ctx') := by
  refine ⟨?_, ?_, ?_, ?_, ?_, ?_⟩
  · intro h
    have hb : traitSections ctx = [] := by
      unfold traitSections
      simp [h]
    refine ⟨hb, ?_⟩
    unfold toSystemPrompt
    rw [hb]
    simp
  · intro h
    have hb : memorySections ctx = [] := by
      unfold memorySections
      simp [h]
    refine ⟨hb, ?_⟩
    unfold toSystemPrompt
    rw [hb]
    simp
  · intro h
    have hb : preferenceSections ctx = [] := by
      unfold preferenceSections
      simp [h]
    refine ⟨hb, ?_⟩
    unfold toSystemPrompt
    rw [hb]
    simp
  · intro h
    have hb : userSections ctx = [] := by
      unfold userSections
      rw [h]
    refine ⟨hb, ?_⟩
    unfold toSystemPrompt
    rw [hb]
    simp
  · intro h
    have hb : projectSections ctx = [] := by
      unfold projectSections
      rw [h]
    refine ⟨hb, ?_⟩
    unfold toSystemPrompt
    rw [hb]
    simp
  · unfold toSystemPrompt
    rw [identitySections_congr ctx' (capCtx ctx') rfl,
      traitSections_take ctx' (capCtx ctx') rfl,
      memorySections_cap ctx' (capCtx ctx') rfl,
      preferenceSections_take ctx' (capCtx ctx') rfl,
      userSections_congr ctx' (capCtx ctx') rfl,
      projectSections_cap ctx' (capCtx ctx') rfl,
      reminderSection_congr ctx' (capCtx ctx') rfl]

/-- Witness for the C9 theorem at a concrete context with every bucket
empty: each bucket contributes no section. -/
theorem to_system_prompt_rendering_witness :
    ({ core_identity := { iname := some "Aria" } } :
        RetrievedContext).memories = []
    ∧ traitSections { core_identity := { iname := some "Aria" } } = []
    ∧ memorySections { core_identity := { iname := some "Aria" } } = []
    ∧ preferenceSections { core_identity := { iname := some "Aria" } } = []
    ∧ userSections { core_identity := { iname := some "Aria" } } = []
    ∧ projectSections { core_identity := { iname := some "Aria" } } = [] :=
  ⟨rfl,
   ((to_system_prompt_rendering { core_identity := { iname := some "Aria" } }
      { memories := [⟨some "remembers the project deadline"⟩] }).1 rfl).1,
   ((to_system_prompt_rendering { core_identity := { iname := some "Aria" } }
      { memories := [⟨some "remembers the project deadline"⟩] }).2.1 rfl).1,
   ((to_system_prompt_rendering { core_identity := { iname := some "Aria" } }
      { memories := [⟨some "remembers the project deadline"⟩] }).2.2.1 rfl).1,
   ((to_system_prompt_rendering { core_identity := { iname := some "Aria" } }
      { memories := [⟨some "remembers the project deadline"⟩] }).2.2.2.1 rfl).1,
   ((to_system_prompt_rendering { core_identity := { iname := some "Aria" } }
      { memories := [⟨some "remembers the project deadline"⟩] }).2.2.2.2.1
        rfl).1⟩

/-! ### Ranking lemmas -/

/-- A truncated stable sort is sorted. -/
theorem sorted_take_sort {α : Type} (r : α → α → Prop) [DecidableRel r]
    [IsTotal α r] [IsTrans α r] (l : List α) (n : ℕ) :
    List.Sorted r ((l.insertionSort r).take n) :=
  List.Pairwise.sublist (List.take_sublist n _)
    (List.sorted_insertionSort r l)

/-- Members of a truncated sort are members of the original list. -/
theorem mem_of_mem_take_sort {α : Type} (r : α → α → Prop) [DecidableRel r]
    (l : List α) (n : ℕ)
    (p : α) (hp : p ∈ (l.insertionSort r).take n) : p ∈ l :=
  (List.perm_insertionSort r l).mem_iff.mp (List.mem_of_mem_take hp)

/-! ### Registry lemmas -/

/-- Keys after a dict assignment: unchanged when the key was present,
appended otherwise. -/
theorem keys_dictInsert {τ : Type} (d : List (String × τ)) (k : String) (v : τ) :
    (dictInsert d k v).map Prod.fst
      = if k ∈ d.map Prod.fst then d.map Prod.fst else d.map Prod.fst ++ [k] := by
  unfold dictInsert
  by_cases hk : k ∈ d.map Prod.fst
  · have hany : (d.any fun p => decide (p.1 = k)) = true := by
      simp only [List.any_eq_true, decide_eq_true_eq]
      obtain ⟨p, hp, hpk⟩ := List.mem_map.mp hk
      exact ⟨p, hp, hpk⟩
    rw [hany, if_pos hk]
    simp only [if_true, List.map_map]
    apply List.map_congr_left
    intro p hp
    by_cases h2 : p.1 = k <;> simp [h2]
  · have hany : (d.any fun p => decide (p.1 = k)) = false := by
      simp only [List.any_eq_false, decide_eq_true_eq]
      intro p hp hpk
      exact hk (List.mem_map.mpr ⟨p, hp, hpk⟩)
    rw [hany, if_neg hk]
    simp

/-- Lookup of an absent key. -/
theorem dictGet_eq_none {τ : Type} (d : List (String × τ)) (k : String)
    (h : k ∉ d.map Prod.fst) : dictGet d k = none := by
  unfold dictGet
  rw [List.find?_eq_none.mpr, Option.map_none']
  intro p hp
  simp only [decide_eq_true_eq]
  intro hpk
  exact h (List.mem_map.mpr ⟨p, hp, hpk⟩)

/-- Lookup after assignment of the same key. -/
theorem dictGet_insert {τ : Type} (d : List (String × τ)) (k : String) (v : τ) :
    dictGet (dictInsert d k v) k = some v := by
  induction d with
  | nil => simp [dictInsert, dictGet]
  | cons p d ih =>
    by_cases hp : p.1 = k
    · have hany : ((p :: d).any fun q => decide (q.1 = k)) = true := by
        simp [hp]
      unfold dictInsert
      rw [hany]
      simp [dictGet, List.find?_cons, hp]
    · unfold dictInsert at ih ⊢
      by_cases hd : (d.any fun q => decide (q.1 = k)) = true
      · have hany : ((p :: d).any fun q => decide (q.1 = k)) = true := by
          simp only [List.any_cons, hd, Bool.or_true]
        rw [hany, if_pos rfl]
        rw [hd, if_pos rfl] at ih
        simpa [dictGet, List.find?_cons, hp] using ih
      · rw [Bool.not_eq_true] at hd
        have hany : ((p :: d).any fun q => decide (q.1 = k)) = false := by
          simp only [List.any_cons, Bool.or_eq_false_iff, hd]
          simp [hp]
        rw [hany]
        rw [hd] at ih
        simp only [if_false, Bool.false_eq_true] at ih ⊢
        simpa [dictGet, List.find?_cons, hp] using ih

/-- Upserting a batch of tools whose names are all new: they are appended to
the index in order, all reported as added, and all marked seen. -/
theorem foldl_processTool_fresh (ts : List Tool) (st : RegState) (ch : Changes)
    (seen : List String)
    (hfresh : ∀ t ∈ ts, t.name ∉ st.tools.map Prod.fst)
    (hnd : (ts.map Tool.name).Nodup) :
    ts.foldl processTool (st, ch, seen)
      = ({ st with tools := st.tools ++ ts.map fun t => (t.name, t) },
         { ch with added := ch.added ++ ts.map Tool.name },
         seen ++ ts.map Tool.name) := by
  induction ts generalizing st ch seen with
  | nil => simp
  | cons t ts ih =>
    rw [List.foldl_cons]
    have hmem : t.name ∉ st.tools.map Prod.fst := hfresh t (by simp)
    have hany : (st.tools.any fun p => decide (p.1 = t.name)) = false := by
      simp only [List.any_eq_false, decide_eq_true_eq]
      intro p hp hpk
      exact hmem (List.mem_map.mpr ⟨p, hp, hpk⟩)
    have hstep : processTool (st, ch, seen) t
        = ({ st with tools := st.tools ++ [(t.name, t)] },
           { ch with added := ch.added ++ [t.name] }, seen ++ [t.name]) := by
      unfold processTool
      dsimp only
      rw [hany]
      simp only [Bool.false_eq_true, if_false]
      unfold dictInsert
      rw [hany]
      simp
    rw [hstep]
    simp only [List.map_cons, List.nodup_cons] at hnd
    rw [ih _ _ _ ?_ hnd.2]
    · simp
    · intro u hu
      simp only [List.map_append, List.map_cons, List.map_nil]
      rw [List.mem_append]
      rintro (hk | hk)
      · exact hfresh u (by simp [hu]) hk
      · simp only [List.mem_singleton] at hk
        exact hnd.1 (hk ▸ List.mem_map.mpr ⟨u, hu, rfl⟩)

/-- Upserting a batch of tools whose names are all already indexed: the key
set is unchanged, the hashes untouched, all names reported as updated and
marked seen. -/
theorem foldl_processTool_present (ts : List Tool) (st : RegState)
    (ch : Changes) (seen : List String)
    (hp : ∀ t ∈ ts, t.name ∈ st.tools.map Prod.fst) :
    (ts.foldl processTool (st, ch, seen)).1.tools.map Prod.fst
        = st.tools.map Prod.fst
    ∧ (ts.foldl processTool (st, ch, seen)).1.fileHashes = st.fileHashes
    ∧ (ts.foldl processTool (st, ch, seen)).2.1
        = { ch with updated := ch.updated ++ ts.map Tool.name }
    ∧ (ts.foldl processTool (st, ch, seen)).2.2 = seen ++ ts.map Tool.name := by
  induction ts generalizing st ch seen with
  | nil => simp
  | cons t ts ih =>
    rw [List.foldl_cons]
    have hmem : t.name ∈ st.tools.map Prod.fst := hp t (by simp)
    have hany : (st.tools.any fun p => decide (p.1 = t.name)) = true := by
      simp only [List.any_eq_true, decide_eq_true_eq]
      obtain ⟨p, hpp, hpk⟩ := List.mem_map.mp hmem
      exact ⟨p, hpp, hpk⟩
    have hkeys : (dictInsert st.tools t.name t).map Prod.fst
        = st.tools.map Prod.fst := by
      rw [keys_dictInsert, if_pos hmem]
    have hstep : processTool (st, ch, seen) t
        = ({ st with tools := dictInsert st.tools t.name t },
           { ch with updated := ch.updated ++ [t.name] }, seen ++ [t.name]) := by
      unfold processTool
      dsimp only
      rw [hany]
      simp
    rw [hstep]
    obtain ⟨k1, k2, k3, k4⟩ := ih { st with tools := dictInsert st.tools t.name t }
      { ch with updated := ch.updated ++ [t.name] } (seen ++ [t.name])
      (fun u hu => by rw [hkeys]; exact hp u (by simp [hu]))
    refine ⟨by rw [k1]; exact hkeys, k2, ?_, by rw [k4]; simp⟩
    rw [k3]
    simp

/-- A dict assignment never drops keys, and afterwards contains the
assigned key. -/
theorem keys_dictInsert_superset {τ : Type} (d : List (String × τ))
    (k : String) (v : τ) :
    (∀ k' ∈ d.map Prod.fst, k' ∈ (dictInsert d k v).map Prod.fst)
    ∧ k ∈ (dictInsert d k v).map Prod.fst := by
  rw [keys_dictInsert]
  by_cases h : k ∈ d.map Prod.fst
  · rw [if_pos h]
    exact ⟨fun _ h' => h', h⟩
  · rw [if_neg h]
    exact ⟨fun _ h' => List.mem_append_left _ h', by simp⟩

/-- What any batch of tool upserts preserves: hashes, errors and removed
are untouched, the seen list is extended by exactly the batch names, keys
are never dropped, and every batch name ends up indexed. -/
theorem foldl_processTool_parts (ts : List Tool) (st : RegState)
    (ch : Changes) (seen : List String) :
    (ts.foldl processTool (st, ch, seen)).1.fileHashes = st.fileHashes
    ∧ (ts.foldl processTool (st, ch, seen)).2.1.errors = ch.errors
    ∧ (ts.foldl processTool (st, ch, seen)).2.1.removed = ch.removed
    ∧ (ts.foldl processTool (st, ch, seen)).2.2 = seen ++ ts.map Tool.name
    ∧ (∀ k ∈ st.tools.map Prod.fst,
        k ∈ (ts.foldl processTool (st, ch, seen)).1.tools.map Prod.fst)
    ∧ (∀ t ∈ ts, t.name ∈ (ts.foldl processTool (st, ch, seen)).1.tools.map Prod.fst) := by
  induction ts generalizing st ch seen with
  | nil => simp
  | cons t ts ih =>
    rw [List.foldl_cons]
    have hstep : ∃ ch₂ : Changes, processTool (st, ch, seen) t
        = ({ st with tools := dictInsert st.tools t.name t }, ch₂, seen ++ [t.name])
        ∧ ch₂.errors = ch.errors ∧ ch₂.removed = ch.removed := by
      unfold processTool
      dsimp only
      by_cases hany : (st.tools.any fun p => decide (p.1 = t.name)) = true
      · exact ⟨{ ch with updated := ch.updated ++ [t.name] },
          by rw [if_pos hany], rfl, rfl⟩
      · rw [Bool.not_eq_true] at hany
        exact ⟨{ ch with added := ch.added ++ [t.name] },
          by rw [hany]; simp, rfl, rfl⟩
    obtain ⟨ch₂, hstep, he₂, hr₂⟩ := hstep
    rw [hstep]
    obtain ⟨k1, k2, k3, k4, k5, k6⟩ :=
      ih { st with tools := dictInsert st.tools t.name t } ch₂ (seen ++ [t.name])
    refine ⟨k1, by rw [k2, he₂], by rw [k3, hr₂], by rw [k4]; simp, ?_, ?_⟩
    · intro k hk
      exact k5 k ((keys_dictInsert_superset st.tools t.name t).1 k hk)
    · intro u hu
      rcases List.mem_cons.mp hu with h | h
      · subst h
        exact k5 u.name (keys_dictInsert_superset st.tools u.name u).2
      · exact k6 u h

/-- Scanning a list of files whose paths are fresh and distinct: errors
accumulate exactly one formatted entry per unparseable file, removed is
untouched, index keys and seen marks only grow, and every tool of every
parseable file ends up indexed and seen. -/
theorem foldl_processFile_run (parse : String → Except String (List Tool))
    (fs : List MFile) (st : RegState) (ch : Changes) (seen : List String)
    (hdisj : ∀ f ∈ fs, f.path ∉ st.fileHashes.map Prod.fst)
    (hnd : (fs.map MFile.path).Nodup) :
    ((fs.foldl (processFile parse) (st, ch, seen)).2.1.errors
        = ch.errors ++ fs.filterMap fun f =>
            match parse f.content with
            | .error e => some (f.fname ++ ": " ++ e)
            | .ok _ => none)
    ∧ ((fs.foldl (processFile parse) (st, ch, seen)).2.1.removed = ch.removed)
    ∧ (∀ k ∈ st.tools.map Prod.fst,
        k ∈ (fs.foldl (processFile parse) (st, ch, seen)).1.tools.map Prod.fst)
    ∧ (∀ x ∈ seen, x ∈ (fs.foldl (processFile parse) (st, ch, seen)).2.2)
    ∧ (∀ f ∈ fs, ∀ ts, parse f.content = .ok ts → ∀ t ∈ ts,
        t.name ∈ (fs.foldl (processFile parse) (st, ch, seen)).1.tools.map Prod.fst
        ∧ t.name ∈ (fs.foldl (processFile parse) (st, ch, seen)).2.2) := by
  induction fs generalizing st ch seen with
  | nil => simp
  | cons f fs ih =>
    rw [List.foldl_cons]
    have hpath : f.path ∉ st.fileHashes.map Prod.fst := hdisj f (by simp)
    have hget : dictGet st.fileHashes f.path = none := dictGet_eq_none _ _ hpath
    simp only [List.map_cons, List.nodup_cons] at hnd
    cases hp : parse f.content with
    | error e =>
      have hstep : processFile parse (st, ch, seen) f
          = (st, { ch with errors := ch.errors ++ [f.fname ++ ": " ++ e] }, seen) := by
        unfold processFile
        dsimp only
        rw [hget, if_pos (by simp), hp]
      rw [hstep]
      obtain ⟨k1, k2, k3, k4, k5⟩ := ih st
        { ch with errors := ch.errors ++ [f.fname ++ ": " ++ e] } seen
        (fun g hg => hdisj g (by simp [hg])) hnd.2
      refine ⟨?_, k2, k3, k4, ?_⟩
      · rw [k1]
        simp [List.filterMap_cons, hp]
      · intro g hg
        rcases List.mem_cons.mp hg with h | h
        · subst h
          intro ts hts
          rw [hp] at hts
          exact absurd hts (by simp)
        · exact k5 g h
    | ok ts =>
      obtain ⟨p1, p2, p3, p4, p5, p6⟩ := foldl_processTool_parts ts st ch seen
      have hstep : processFile parse (st, ch, seen) f
          = ({ (ts.foldl processTool (st, ch, seen)).1 with
                fileHashes := dictInsert st.fileHashes f.path f.content },
             (ts.foldl processTool (st, ch, seen)).2.1,
             (ts.foldl processTool (st, ch, seen)).2.2) := by
        unfold processFile
        dsimp only
        rw [hget, if_pos (by simp), hp]
        dsimp only
        rw [p1]
      rw [hstep]
      obtain ⟨k1, k2, k3, k4, k5⟩ := ih
        { (ts.foldl processTool (st, ch, seen)).1 with
          fileHashes := dictInsert st.fileHashes f.path f.content }
        (ts.foldl processTool (st, ch, seen)).2.1
        (ts.foldl processTool (st, ch, seen)).2.2
        (fun g hg => by
          rw [keys_dictInsert, if_neg hpath]
          intro hmem
          rcases List.mem_append.mp hmem with h | h
          · exact hdisj g (by simp [hg]) h
          · simp only [List.mem_singleton] at h
            exact hnd.1 (h ▸ List.mem_map.mpr ⟨g, hg, rfl⟩))
        hnd.2
      refine ⟨?_, by rw [k2, p3], ?_, ?_, ?_⟩
      · rw [k1, p2]
        simp [List.filterMap_cons, hp]
      · intro k hk
        exact k3 k (p5 k hk)
      · intro x hx
        exact k4 x (by rw [p4]; exact List.mem_append_left _ hx)
      · intro g hg
        rcases List.mem_cons.mp hg with h | h
        · subst h
          intro ts' hts'
          rw [hp] at hts'
          obtain rfl := Except.ok.inj hts'
          intro t ht
          refine ⟨k3 t.name (p6 t ht), k4 t.name ?_⟩
          rw [p4]
          exact List.mem_append.mpr (Or.inr (List.mem_map.mpr ⟨t, ht, rfl⟩))
        · exact k5 g h

/-- Unconditional facts about a scan: index keys never shrink, and every
name marked seen comes from the parse of one of the scanned files. -/
theorem foldl_processFile_mono (parse : String → Except String (List Tool))
    (fs : List MFile) (st : RegState) (ch : Changes) (seen : List String) :
    (∀ k ∈ st.tools.map Prod.fst,
        k ∈ (fs.foldl (processFile parse) (st, ch, seen)).1.tools.map Prod.fst)
    ∧ (∀ x ∈ (fs.foldl (processFile parse) (st, ch, seen)).2.2,
        x ∈ seen ∨ ∃ f ∈ fs, ∃ ts, parse f.content = .ok ts
          ∧ x ∈ ts.map Tool.name) := by
  induction fs generalizing st ch seen with
  | nil => simp
  | cons f fs ih =>
    rw [List.foldl_cons]
    have hstep : ∃ (st₂ : RegState) (ch₂ : Changes) (ns : List String),
        processFile parse (st, ch, seen) f = (st₂, ch₂, seen ++ ns)
        ∧ (∀ k ∈ st.tools.map Prod.fst, k ∈ st₂.tools.map Prod.fst)
        ∧ (∀ x ∈ ns, ∃ ts, parse f.content = .ok ts ∧ x ∈ ts.map Tool.name) := by
      cases hp : parse f.content with
      | error e =>
        refine ⟨st, { ch with errors := ch.errors ++ [f.fname ++ ": " ++ e] },
          [], ?_, fun _ h => h, by simp⟩
        unfold processFile
        dsimp only
        by_cases hif : dictGet st.fileHashes f.path ≠ some f.content
        · rw [if_pos hif, hp]
          simp
        · rw [if_neg hif, hp]
          simp
      | ok ts =>
        obtain ⟨p1, p2, p3, p4, p5, p6⟩ := foldl_processTool_parts ts st ch seen
        by_cases hif : dictGet st.fileHashes f.path ≠ some f.content
        · refine ⟨{ (ts.foldl processTool (st, ch, seen)).1 with
              fileHashes := dictInsert
                (ts.foldl processTool (st, ch, seen)).1.fileHashes
                f.path f.content },
            (ts.foldl processTool (st, ch, seen)).2.1,
            ts.map Tool.name, ?_, p5, fun x hx => ⟨ts, rfl, hx⟩⟩
          unfold processFile
          dsimp only
          rw [if_pos hif, hp]
          dsimp only
          rw [p4]
        · refine ⟨st, ch, ts.map Tool.name, ?_, fun _ h => h,
            fun x hx => ⟨ts, rfl, hx⟩⟩
          unfold processFile
          dsimp only
          rw [if_neg hif, hp]
    obtain ⟨st₂, ch₂, ns, hstep, hkeys, hns⟩ := hstep
    rw [hstep]
    obtain ⟨k1, k2⟩ := ih st₂ ch₂ (seen ++ ns)
    refine ⟨fun k hk => k1 k (hkeys k hk), ?_⟩
    intro x hx
    rcases k2 x hx with h | ⟨g, hg, ts, hts, hx'⟩
    · rcases List.mem_append.mp h with h' | h'
      · exact Or.inl h'
      · obtain ⟨ts, hts, hx'⟩ := hns x h'
        exact Or.inr ⟨f, by simp, ts, hts, hx'⟩
    · exact Or.inr ⟨g, by simp [hg], ts, hts, hx'⟩

/-- Mapping over an option does not change whether it is some. -/
theorem isSome_map_pair {α β : Type} (f : α → β) (o : Option α) :
    (o.map f).isSome = o.isSome := by
  cases o <;> rfl

/-- Claim C8: a refresh pass over a directory with exactly one malformed
definition file still loads every tool of every well-formed file, and the
result's errors list is exactly the one entry "basename: reason" for the
malformed file. -/
theorem refresh_malformed_isolation (parse : String → Except String (List Tool))
    (pre post : List MFile) (bad : MFile) (msg : String)
    (tools0 : List (String × Tool))
    (hbad : parse bad.content = .error msg)
    (hok : ∀ f ∈ pre ++ post, ∃ ts, parse f.content = .ok ts)
    (hnd : ((pre ++ bad :: post).map MFile.path).Nodup) :
    (refreshTools parse (pre ++ bad :: post) ⟨tools0, []⟩).2.errors
        = [bad.fname ++ ": " ++ msg]
    ∧ ∀ f ∈ pre ++ post, ∀ ts, parse f.content = .ok ts → ∀ t ∈ ts,
        (getTool (refreshTools parse (pre ++ bad :: post) ⟨tools0, []⟩).1
          t.name).isSome = true := by
  obtain ⟨k1, _, _, _, k5⟩ := foldl_processFile_run parse (pre ++ bad :: post)
    ⟨tools0, []⟩ {} [] (by simp) hnd
  constructor
  · show ((pre ++ bad :: post).foldl (processFile parse)
        (⟨tools0, []⟩, {}, [])).2.1.errors = _
    rw [k1]
    have hpre : (pre.filterMap fun f =>
        match parse f.content with
        | .error e => some (f.fname ++ ": " ++ e)
        | .ok _ => none) = [] := by
      rw [List.filterMap_eq_nil_iff]
      intro f hf
      obtain ⟨ts, hts⟩ := hok f (List.mem_append_left _ hf)
      rw [hts]
    have hpost : (post.filterMap fun f =>
        match parse f.content with
        | .error e => some (f.fname ++ ": " ++ e)
        | .ok _ => none) = [] := by
      rw [List.filterMap_eq_nil_iff]
      intro f hf
      obtain ⟨ts, hts⟩ := hok f (List.mem_append_right _ hf)
      rw [hts]
    rw [List.filterMap_append, hpre, List.filterMap_cons, hbad, hpost]
    simp
  · intro f hf ts hts t ht
    have hfull : f ∈ pre ++ bad :: post := by
      rcases List.mem_append.mp hf with h | h
      · exact List.mem_append_left _ h
      · exact List.mem_append_right _ (List.mem_cons_of_mem _ h)
    obtain ⟨hkey, hseen⟩ := k5 f hfull ts hts t ht
    show ((getTool
        ⟨((pre ++ bad :: post).foldl (processFile parse)
            (⟨tools0, []⟩, {}, [])).1.tools.filter fun p =>
              decide (p.1 ∈ ((pre ++ bad :: post).foldl (processFile parse)
                (⟨tools0, []⟩, {}, [])).2.2), _⟩ t.name).isSome) = true
    unfold getTool dictGet
    rw [isSome_map_pair]
    rw [List.find?_isSome]
    obtain ⟨p, hp, hpk⟩ := List.mem_map.mp hkey
    refine ⟨p, List.mem_filter.mpr ⟨hp, ?_⟩, by simp [hpk]⟩
    simp only [decide_eq_true_eq]
    rw [hpk]
    exact hseen

/-- Witness for the C8 theorem: one good file, one malformed file. -/
theorem refresh_malformed_isolation_witness :
    ((fun s => if s = "good-content" then
        Except.ok [{ name := "alpha" : Tool }]
      else Except.error "bad json") "corrupt" = Except.error "bad json")
    ∧ (refreshTools
        (fun s => if s = "good-content" then
          Except.ok [{ name := "alpha" : Tool }]
        else Except.error "bad json")
        ([⟨"a.json", "/tools/core/a.json", "good-content"⟩]
          ++ ⟨"b.json", "/tools/core/b.json", "corrupt"⟩ :: [])
        ⟨[], []⟩).2.errors = ["b.json" ++ ": " ++ "bad json"] :=
  ⟨rfl,
   (refresh_malformed_isolation
      (fun s => if s = "good-content" then
        Except.ok [{ name := "alpha" : Tool }]
      else Except.error "bad json")
      [⟨"a.json", "/tools/core/a.json", "good-content"⟩] []
      ⟨"b.json", "/tools/core/b.json", "corrupt"⟩ "bad json" []
      rfl
      (by
        intro f hf
        simp only [List.append_nil, List.mem_singleton] at hf
        subst hf
        exact ⟨[{ name := "alpha" }], rfl⟩)
      (by decide)).1⟩

/-- Claim C10: a tool registered with save=False and present in no
definition file is retrievable until the next refresh, which deletes it
from the index and reports it as removed. -/
theorem register_ephemeral_removed_on_refresh
    (parse : String → Except String (List Tool)) (files : List MFile)
    (st : RegState) (t : Tool)
    (hname : ∀ f ∈ files, ∀ ts, parse f.content = .ok ts →
      t.name ∉ ts.map Tool.name) :
    getTool (registerTool st t) t.name = some t
    ∧ getTool (refreshTools parse files (registerTool st t)).1 t.name = none
    ∧ t.name ∈ (refreshTools parse files (registerTool st t)).2.removed := by
  obtain ⟨m1, m2⟩ := foldl_processFile_mono parse files (registerTool st t) {} []
  have hkey : t.name ∈ (files.foldl (processFile parse)
      (registerTool st t, {}, [])).1.tools.map Prod.fst :=
    m1 t.name (keys_dictInsert_superset st.tools t.name t).2
  have hseen : t.name ∉ (files.foldl (processFile parse)
      (registerTool st t, {}, [])).2.2 := by
    intro h
    rcases m2 t.name h with h0 | ⟨f, hf, ts, hts, hn⟩
    · simp at h0
    · exact hname f hf ts hts hn
  refine ⟨?_, ?_, ?_⟩
  · unfold registerTool getTool
    exact dictGet_insert st.tools t.name t
  · show getTool ⟨(files.foldl (processFile parse)
        (registerTool st t, {}, [])).1.tools.filter fun p =>
          decide (p.1 ∈ (files.foldl (processFile parse)
            (registerTool st t, {}, [])).2.2), _⟩ t.name = none
    unfold getTool dictGet
    rw [List.find?_eq_none.mpr, Option.map_none']
    intro p hp
    simp only [decide_eq_true_eq]
    intro hpk
    have := (List.mem_filter.mp hp).2
    simp only [decide_eq_true_eq] at this
    exact hseen (hpk ▸ this)
  · show t.name ∈ (files.foldl (processFile parse)
        (registerTool st t, {}, [])).2.1.removed ++
        ((files.foldl (processFile parse)
          (registerTool st t, {}, [])).1.tools.map Prod.fst).filter fun n =>
            decide (n ∉ (files.foldl (processFile parse)
              (registerTool st t, {}, [])).2.2)
    refine List.mem_append.mpr (Or.inr (List.mem_filter.mpr ⟨hkey, ?_⟩))
    simp only [decide_eq_true_eq]
    exact hseen

/-- Witness for the C10 theorem: an ephemeral tool vanishes at refresh. -/
theorem register_ephemeral_removed_on_refresh_witness :
    getTool (registerTool ⟨[], []⟩ { name := "scratch" }) "scratch"
        = some { name := "scratch" }
    ∧ getTool (refreshTools
        (fun _ => Except.ok [{ name := "alpha" : Tool }])
        [⟨"a.json", "/tools/core/a.json", "c1"⟩]
        (registerTool ⟨[], []⟩ { name := "scratch" })).1 "scratch" = none :=
  ⟨(register_ephemeral_removed_on_refresh
      (fun _ => Except.ok [{ name := "alpha" : Tool }])
      [⟨"a.json", "/tools/core/a.json", "c1"⟩] ⟨[], []⟩ { name := "scratch" }
      (by
        intro f hf ts hts
        obtain rfl := Except.ok.inj hts
        decide)).1,
   (register_ephemeral_removed_on_refresh
      (fun _ => Except.ok [{ name := "alpha" : Tool }])
      [⟨"a.json", "/tools/core/a.json", "c1"⟩] ⟨[], []⟩ { name := "scratch" }
      (by
        intro f hf ts hts
        obtain rfl := Except.ok.inj hts
        decide)).2.1⟩

/-- Keys of an index built from a batch of tools are the tool names. -/
theorem keys_toolPairs (A : List Tool) :
    (A.map fun t => (t.name, t)).map Prod.fst = A.map Tool.name := by
  rw [List.map_map]
  rfl

/-- Claim C4 (registry diff scenario): starting from an empty registry,
refresh 1 over files a.json and b.json, then refresh 2 over a modified
a.json and a new c.json with b.json deleted, reports added = tools of
c.json, updated = tools of a.json, removed = tools of b.json, and no
errors.  Tool-name sets of the three files are assumed disjoint and
duplicate-free, and the modified a.json defines the same tool names. -/
theorem refresh_diff_scenario (parse : String → Except String (List Tool))
    (A A2 B C : List Tool) (na nb nc pa pb pc ca ca2 cb cc : String)
    (hA : parse ca = .ok A) (hA2 : parse ca2 = .ok A2)
    (hB : parse cb = .ok B) (hC : parse cc = .ok C)
    (hmod : ca ≠ ca2)
    (hab : pa ≠ pb) (hac : pa ≠ pc) (hbc : pb ≠ pc)
    (hndA : (A.map Tool.name).Nodup) (hndB : (B.map Tool.name).Nodup)
    (hndC : (C.map Tool.name).Nodup)
    (hA2eq : A2.map Tool.name = A.map Tool.name)
    (hAB : ∀ n ∈ A.map Tool.name, n ∉ B.map Tool.name)
    (hCA : ∀ n ∈ C.map Tool.name, n ∉ A.map Tool.name)
    (hCB : ∀ n ∈ C.map Tool.name, n ∉ B.map Tool.name) :
    (refreshTools parse [⟨na, pa, ca2⟩, ⟨nc, pc, cc⟩]
        (refreshTools parse [⟨na, pa, ca⟩, ⟨nb, pb, cb⟩] ⟨[], []⟩).1).2
      = { added := C.map Tool.name, updated := A2.map Tool.name,
          removed := B.map Tool.name, errors := [] } := by
  -- refresh 1, file a.json
  have hfa1 : processFile parse (⟨[], []⟩, {}, []) ⟨na, pa, ca⟩
      = (⟨A.map fun t => (t.name, t), [(pa, ca)]⟩,
         { added := A.map Tool.name }, A.map Tool.name) := by
    unfold processFile
    dsimp only
    rw [show dictGet ([] : List (String × String)) pa = none from rfl,
      if_pos (by simp), hA]
    dsimp only
    rw [foldl_processTool_fresh A ⟨[], []⟩ {} [] (by simp) hndA]
    dsimp only
    simp [dictInsert]
  -- refresh 1, file b.json
  have hfb1 : processFile parse
      ((⟨A.map fun t => (t.name, t), [(pa, ca)]⟩ : RegState),
       ({ added := A.map Tool.name } : Changes), A.map Tool.name) ⟨nb, pb, cb⟩
      = (⟨(A.map fun t => (t.name, t)) ++ B.map fun t => (t.name, t),
          [(pa, ca), (pb, cb)]⟩,
         { added := A.map Tool.name ++ B.map Tool.name },
         A.map Tool.name ++ B.map Tool.name) := by
    unfold processFile
    dsimp only
    have hget : dictGet [(pa, ca)] pb = none := by
      apply dictGet_eq_none
      simp only [List.map_cons, List.map_nil, List.mem_singleton]
      exact fun h => hab h.symm
    rw [hget, if_pos (by simp), hB]
    dsimp only
    rw [foldl_processTool_fresh B _ _ _ ?_ hndB]
    · dsimp only
      simp only [dictInsert, keys_toolPairs]
      simp [hab]
    · intro u hu
      rw [keys_toolPairs]
      intro hk
      exact hAB u.name hk (List.mem_map.mpr ⟨u, hu, rfl⟩)
  -- refresh 1 final state
  have hst1 : (refreshTools parse [⟨na, pa, ca⟩, ⟨nb, pb, cb⟩] ⟨[], []⟩).1
      = ⟨(A.map fun t => (t.name, t)) ++ B.map fun t => (t.name, t),
         [(pa, ca), (pb, cb)]⟩ := by
    unfold refreshTools
    rw [List.foldl_cons, hfa1, List.foldl_cons, hfb1, List.foldl_nil]
    dsimp only
    have hkeep : ((A.map fun t => (t.name, t)) ++ B.map fun t => (t.name, t)).filter
        (fun p => decide (p.1 ∈ A.map Tool.name ++ B.map Tool.name))
        = (A.map fun t => (t.name, t)) ++ B.map fun t => (t.name, t) := by
      rw [List.filter_eq_self]
      intro p hp
      simp only [decide_eq_true_eq]
      have : p.1 ∈ ((A.map fun t => (t.name, t)) ++ B.map fun t => (t.name, t)).map Prod.fst :=
        List.mem_map.mpr ⟨p, hp, rfl⟩
      rwa [List.map_append, keys_toolPairs, keys_toolPairs] at this
    rw [hkeep]
  -- refresh 2, file a.json (modified)
  obtain ⟨p1, p2, p3, p4⟩ := foldl_processTool_present A2
    ⟨(A.map fun t => (t.name, t)) ++ B.map fun t => (t.name, t),
     [(pa, ca), (pb, cb)]⟩ {} []
    (by
      intro u hu
      show u.name ∈ ((A.map fun t => (t.name, t)) ++ B.map fun t => (t.name, t)).map Prod.fst
      rw [List.map_append, keys_toolPairs, keys_toolPairs]
      refine List.mem_append.mpr (Or.inl ?_)
      rw [← hA2eq]
      exact List.mem_map.mpr ⟨u, hu, rfl⟩)
  have hfa2 : processFile parse
      ((⟨(A.map fun t => (t.name, t)) ++ B.map fun t => (t.name, t),
         [(pa, ca), (pb, cb)]⟩ : RegState), ({} : Changes), ([] : List String))
      ⟨na, pa, ca2⟩
      = (⟨(A2.foldl processTool
            (⟨(A.map fun t => (t.name, t)) ++ B.map fun t => (t.name, t),
              [(pa, ca), (pb, cb)]⟩, {}, [])).1.tools,
          [(pa, ca2), (pb, cb)]⟩,
         { updated := A2.map Tool.name }, A2.map Tool.name) := by
    unfold processFile
    dsimp only
    have hget : dictGet [(pa, ca), (pb, cb)] pa = some ca := by
      simp [dictGet, List.find?]
    rw [hget, if_pos (by simp [hmod]), hA2]
    dsimp only
    rw [p2, p3, p4]
    simp [dictInsert, hab.symm]
  -- refresh 2, new file c.json
  have hkeysT : (A2.foldl processTool
      (⟨(A.map fun t => (t.name, t)) ++ B.map fun t => (t.name, t),
        [(pa, ca), (pb, cb)]⟩, {}, [])).1.tools.map Prod.fst
      = A.map Tool.name ++ B.map Tool.name := by
    rw [p1]
    dsimp only
    rw [List.map_append, keys_toolPairs, keys_toolPairs]
  have hfc2 : processFile parse
      ((⟨(A2.foldl processTool
          (⟨(A.map fun t => (t.name, t)) ++ B.map fun t => (t.name, t),
            [(pa, ca), (pb, cb)]⟩, {}, [])).1.tools,
         [(pa, ca2), (pb, cb)]⟩ : RegState),
       ({ updated := A2.map Tool.name } : Changes), A2.map Tool.name)
      ⟨nc, pc, cc⟩
      = (⟨((A2.foldl processTool
            (⟨(A.map fun t => (t.name, t)) ++ B.map fun t => (t.name, t),
              [(pa, ca), (pb, cb)]⟩, {}, [])).1.tools
            ++ C.map fun t => (t.name, t)),
          dictInsert [(pa, ca2), (pb, cb)] pc cc⟩,
         { added := C.map Tool.name, updated := A2.map Tool.name },
         A2.map Tool.name ++ C.map Tool.name) := by
    unfold processFile
    dsimp only
    have hget : dictGet [(pa, ca2), (pb, cb)] pc = none := by
      apply dictGet_eq_none
      simp only [List.map_cons, List.map_nil]
      intro hmem
      rcases List.mem_cons.mp hmem with h | hmem2
      · exact hac h.symm
      · rw [List.mem_singleton] at hmem2
        exact hbc hmem2.symm
    rw [hget, if_pos (by simp), hC]
    dsimp only
    rw [foldl_processTool_fresh C _ _ _ ?_ hndC]
    · dsimp only
      simp
    · intro u hu
      show u.name ∉ (A2.foldl processTool
        (⟨(A.map fun t => (t.name, t)) ++ B.map fun t => (t.name, t),
          [(pa, ca), (pb, cb)]⟩, {}, [])).1.tools.map Prod.fst
      rw [hkeysT]
      intro hk
      have hu' : u.name ∈ C.map Tool.name := List.mem_map.mpr ⟨u, hu, rfl⟩
      rcases List.mem_append.mp hk with h | h
      · exact hCA u.name hu' h
      · exact hCB u.name hu' h
  -- assemble refresh 2
  rw [hst1]
  unfold refreshTools
  rw [List.foldl_cons, hfa2, List.foldl_cons, hfc2, List.foldl_nil]
  dsimp only
  have hkeys2 : ((A2.foldl processTool
      (⟨(A.map fun t => (t.name, t)) ++ B.map fun t => (t.name, t),
        [(pa, ca), (pb, cb)]⟩, {}, [])).1.tools
      ++ C.map fun t => (t.name, t)).map Prod.fst
      = (A.map Tool.name ++ B.map Tool.name) ++ C.map Tool.name := by
    rw [List.map_append, hkeysT, keys_toolPairs]
  rw [hkeys2]
  have hremoved : ((A.map Tool.name ++ B.map Tool.name) ++ C.map Tool.name).filter
      (fun n => decide (n ∉ A2.map Tool.name ++ C.map Tool.name))
      = B.map Tool.name := by
    rw [List.filter_append, List.filter_append]
    have h1 : (A.map Tool.name).filter
        (fun n => decide (n ∉ A2.map Tool.name ++ C.map Tool.name)) = [] := by
      rw [List.filter_eq_nil_iff]
      intro n hn
      simp only [decide_eq_true_eq, Decidable.not_not]
      exact List.mem_append.mpr (Or.inl (hA2eq ▸ hn))
    have h2 : (B.map Tool.name).filter
        (fun n => decide (n ∉ A2.map Tool.name ++ C.map Tool.name))
        = B.map Tool.name := by
      rw [List.filter_eq_self]
      intro n hn
      simp only [decide_eq_true_eq]
      intro hcon
      rcases List.mem_append.mp hcon with h | h
      · exact hAB n (hA2eq ▸ h) hn
      · exact hCB n h hn
    have h3 : (C.map Tool.name).filter
        (fun n => decide (n ∉ A2.map Tool.name ++ C.map Tool.name)) = [] := by
      rw [List.filter_eq_nil_iff]
      intro n hn
      simp only [decide_eq_true_eq, Decidable.not_not]
      exact List.mem_append.mpr (Or.inr hn)
    rw [h1, h2, h3]
    simp
  rw [hremoved]
  simp

/-- Concrete parse function for the registry-diff witness: four file
contents, one tool each. -/
def parseScenario : String → Except String (List Tool) := fun s =>
  if s = "ca" then .ok [{ name := "t-a" }]
  else if s = "ca2" then .ok [{ name := "t-a", description := "v2" }]
  else if s = "cb" then .ok [{ name := "t-b" }]
  else if s = "cc" then .ok [{ name := "t-c" }]
  else .error "bad"

/-- Witness for the C4 theorem at a concrete two-refresh run. -/
theorem refresh_diff_scenario_witness :
    ("ca" : String) ≠ "ca2"
    ∧ (refreshTools parseScenario
        [⟨"a.json", "/a", "ca2"⟩, ⟨"c.json", "/c", "cc"⟩]
        (refreshTools parseScenario
          [⟨"a.json", "/a", "ca"⟩, ⟨"b.json", "/b", "cb"⟩] ⟨[], []⟩).1).2
      = { added := ["t-c"], updated := ["t-a"], removed := ["t-b"],
          errors := [] } := by
  refine ⟨by decide, ?_⟩
  rw [refresh_diff_scenario parseScenario
    [{ name := "t-a" }] [{ name := "t-a", description := "v2" }]
    [{ name := "t-b" }] [{ name := "t-c" }]
    "a.json" "b.json" "c.json" "/a" "/b" "/c" "ca" "ca2" "cb" "cc"
    rfl rfl rfl rfl (by decide) (by decide) (by decide) (by decide)
    (by decide) (by decide) (by decide) rfl (by decide) (by decide)
    (by decide)]
  rfl

/-- Claim C6 as amended: the indexed vector-search path reports
memories_considered as the total persona memory count, returns at most
limit results, ordered by similarity descending, and every result is a
persona memory with a non-null embedding whose score is its cosine
similarity to the query and is strictly greater than 0.5 (the Cypher WHERE
uses score > 0.5, not ≥). -/
theorem vector_search_memories_spec (qe : List ℚ) (limit : ℕ)
    (mems : List Memory) :
    (vectorSearchMemories qe limit mems).2 = mems.length
    ∧ (vectorSearchMemories qe limit mems).1.length ≤ limit
    ∧ List.Sorted (descR Prod.snd) (vectorSearchMemories qe limit mems).1
    ∧ ∀ p ∈ (vectorSearchMemories qe limit mems).1,
        p.1 ∈ mems ∧ ∃ e, p.1.embedding = some e ∧ p.2 = cosineSim e qe
          ∧ (1 : ℝ) / 2 < p.2 := by
  refine ⟨rfl, ?_, ?_, ?_⟩
  · exact List.length_take_le _ _
  · exact sorted_take_sort _ _ _
  · intro p hp
    have hp2 := mem_of_mem_take_sort _ _ _ _ hp
    have hp3 := List.mem_filter.mp hp2
    have hp4 := List.mem_filterMap.mp hp3.1
    obtain ⟨m, hm, hmap⟩ := hp4
    obtain ⟨e, hme, heq⟩ := Option.map_eq_some'.mp hmap
    have hscore := hp3.2
    rw [decide_eq_true_eq] at hscore
    refine ⟨?_, e, ?_, ?_, hscore⟩
    · rw [← heq] at hp ⊢
      exact hm
    · rw [← heq]
      exact hme
    · rw [← heq]

/-- Claim C6, counterexample to the stated threshold: a persona memory
whose cosine similarity to the query is exactly 0.5 — meeting the claim's
"≥ 0.5" — is excluded by the code's strict score > 0.5 filter. -/
theorem vector_search_threshold_counterexample :
    (1 : ℝ) / 2 ≤ cosineSim [1, 1, 1, 1] [1, 0, 0, 0]
    ∧ (vectorSearchMemories [1, 0, 0, 0] 5
        [{ mid := "m1", embedding := some [1, 1, 1, 1] }]).1 = [] := by
  have hd : dotQ [1, 1, 1, 1] [1, 0, 0, 0] = 1 := by norm_num [dotQ]
  have hn1 : normSq [1, 1, 1, 1] = 4 := by norm_num [normSq, dotQ]
  have hn2 : normSq [1, 0, 0, 0] = 1 := by norm_num [normSq, dotQ]
  have hcos : cosineSim [1, 1, 1, 1] [1, 0, 0, 0] = 1 / 2 := by
    unfold cosineSim
    rw [hd, hn1, hn2]
    rw [show ((4 : ℚ) : ℝ) = 4 by norm_num, show ((1 : ℚ) : ℝ) = 1 by norm_num,
      show (4 : ℝ) = 2 ^ 2 by norm_num,
      Real.sqrt_sq (by norm_num : (0 : ℝ) ≤ 2), Real.sqrt_one]
    norm_num
  constructor
  · rw [hcos]
  · unfold vectorSearchMemories
    dsimp only
    rw [show ([{ mid := "m1", embedding := some [1, 1, 1, 1] }] :
        List Memory).filterMap (fun m =>
          m.embedding.map fun e => (m, cosineSim e [1, 0, 0, 0]))
        = [({ mid := "m1", embedding := some [1, 1, 1, 1] },
            cosineSim [1, 1, 1, 1] [1, 0, 0, 0])] from rfl]
    rw [hcos]
    rw [show (List.filter (fun p => decide ((1 : ℝ) / 2 < p.2))
        [({ mid := "m1", embedding := some [1, 1, 1, 1] : Memory },
          (1 : ℝ) / 2)]) = [] from ?_]
    · rfl
    · rw [List.filter_eq_nil_iff]
      intro p hp
      rw [List.mem_singleton] at hp
      subst hp
      simp only [decide_eq_true_eq]
      norm_num

/-- Claim C1: when the query embeds successfully and the indexed vector
search returns at least one result, retrieval returns exactly those results
(with their scores and the count query's total) via the vector strategy and
performs no write-backs; and whenever the full-scan fallback strategy ran,
the vector search either raised (vectorIndexOk = false) or returned zero
results. -/
theorem vector_first_fallback_only_on_empty_or_raise
    (embed : String → Except Unit (List ℚ)) (mems : List Memory)
    (query : String) (limit : ℕ) (qe : List ℚ)
    (hq : embed query = .ok qe) :
    ((vectorSearchMemories qe limit mems).1 ≠ [] →
      getRelevantMemories embed true true mems query limit
        = ⟨(vectorSearchMemories qe limit mems).1.map fun p => (p.1, some p.2),
           (vectorSearchMemories qe limit mems).2, .vector, []⟩)
    ∧ ∀ vOk : Bool,
        (getRelevantMemories embed vOk true mems query limit).strategy
            = Strategy.fallback →
          vOk = false ∨ (vectorSearchMemories qe limit mems).1 = [] := by
  constructor
  · intro hne
    unfold getRelevantMemories
    rw [hq]
    have hemp : (vectorSearchMemories qe limit mems).1.isEmpty = false := by
      rw [List.isEmpty_eq_false]
      exact hne
    simp [hemp]
  · intro vOk hstrat
    cases vOk with
    | false => exact Or.inl rfl
    | true =>
      refine Or.inr ?_
      unfold getRelevantMemories at hstrat
      rw [hq] at hstrat
      by_cases hemp : (vectorSearchMemories qe limit mems).1.isEmpty
      · rw [← List.isEmpty_iff]
        exact hemp
      · simp [hemp] at hstrat

/-- Witness for the C1 theorem: one memory whose embedding matches the
query exactly, so the vector path fires. -/
theorem vector_first_witness :
    ((fun _ : String => (Except.ok [1, 0] : Except Unit (List ℚ))) "hello"
        = .ok [1, 0])
    ∧ (getRelevantMemories (fun _ => .ok [1, 0]) true true
        [{ mid := "m1", embedding := some [1, 0] }] "hello" 5).strategy
      = Strategy.vector := by
  have hcos : cosineSim [1, 0] [1, 0] = 1 := by
    unfold cosineSim
    norm_num [dotQ, normSq]
  have hvs : (vectorSearchMemories [1, 0] 5
      [{ mid := "m1", embedding := some [1, 0] }]).1
      = [({ mid := "m1", embedding := some [1, 0] }, 1)] := by
    unfold vectorSearchMemories
    dsimp only
    rw [show ([{ mid := "m1", embedding := some [1, 0] }] :
        List Memory).filterMap (fun m =>
          m.embedding.map fun e => (m, cosineSim e [1, 0]))
        = [({ mid := "m1", embedding := some [1, 0] },
            cosineSim [1, 0] [1, 0])] from rfl]
    rw [hcos]
    rw [show (List.filter (fun p => decide ((1 : ℝ) / 2 < p.2))
        [({ mid := "m1", embedding := some [1, 0] : Memory }, (1 : ℝ))])
        = [({ mid := "m1", embedding := some [1, 0] : Memory }, (1 : ℝ))]
        from ?_]
    · rfl
    · rw [List.filter_eq_self]
      intro p hp
      rw [List.mem_singleton] at hp
      subst hp
      simp only [decide_eq_true_eq]
      norm_num
  refine ⟨rfl, ?_⟩
  have happ := (vector_first_fallback_only_on_empty_or_raise
    (fun _ => .ok [1, 0])
    [{ mid := "m1", embedding := some [1, 0] }] "hello" 5 [1, 0] rfl).1
    (by rw [hvs]; simp)
  rw [happ]

/-- Claim C7: when embedding the query raises, retrieval returns the
persona's most recently created memories (sorted by created_at descending,
at most limit of them, each unscored), reports memories_considered = 0, and
never runs the vector or full-scan strategies (recency strategy, no
write-backs). -/
theorem recency_on_embed_failure (embed : String → Except Unit (List ℚ))
    (vOk : Bool) (mems : List Memory) (query : String) (limit : ℕ)
    (h : embed query = .error ()) :
    (getRelevantMemories embed vOk true mems query limit).considered = 0
    ∧ (getRelevantMemories embed vOk true mems query limit).strategy
        = Strategy.recency
    ∧ (getRelevantMemories embed vOk true mems query limit).writebacks = []
    ∧ (getRelevantMemories embed vOk true mems query limit).memories.map
        Prod.fst = getRecentMemories limit mems
    ∧ (∀ p ∈ (getRelevantMemories embed vOk true mems query limit).memories,
        p.1 ∈ mems ∧ p.2 = none)
    ∧ List.Sorted (descN Memory.created_at)
        ((getRelevantMemories embed vOk true mems query limit).memories.map
          Prod.fst)
    ∧ (getRelevantMemories embed vOk true mems query limit).memories.length
        = min limit mems.length := by
  unfold getRelevantMemories
  rw [h]
  simp only [Bool.not_true, Bool.false_eq_true, if_false]
  have hmap : ((getRecentMemories limit mems).map fun m =>
      (m, (none : Option ℝ))).map Prod.fst = getRecentMemories limit mems := by
    rw [List.map_map]
    exact List.map_id' _
  refine ⟨by trivial, by trivial, by trivial, hmap, ?_, ?_, ?_⟩
  · intro p hp
    obtain ⟨m, hm, rfl⟩ := List.mem_map.mp hp
    exact ⟨mem_of_mem_take_sort (descN Memory.created_at) mems limit m hm, rfl⟩
  · show List.Sorted (descN Memory.created_at)
      (((getRecentMemories limit mems).map fun m =>
        (m, (none : Option ℝ))).map Prod.fst)
    rw [hmap]
    exact sorted_take_sort (descN Memory.created_at) mems limit
  · show ((getRecentMemories limit mems).map fun m =>
      (m, (none : Option ℝ))).length = min limit mems.length
    rw [List.length_map]
    unfold getRecentMemories
    rw [List.length_take, List.length_insertionSort]

/-- Witness for the C7 theorem: a failing embedder over two memories. -/
theorem recency_on_embed_failure_witness :
    ((fun _ : String => (Except.error () : Except Unit (List ℚ))) "hi"
        = .error ())
    ∧ (getRelevantMemories (fun _ => .error ()) true true
        [{ mid := "m1", created_at := 1 }, { mid := "m2", created_at := 2 }]
        "hi" 5).strategy = Strategy.recency :=
  ⟨rfl,
   (recency_on_embed_failure (fun _ => .error ()) true
      [{ mid := "m1", created_at := 1 }, { mid := "m2", created_at := 2 }]
      "hi" 5 rfl).2.1⟩

/-! ### Full-scan fallback lemmas -/

/-- The scoring step keeps the memory itself. -/
theorem fallbackStep_fst (embed : String → Except Unit (List ℚ))
    (qe : List ℚ) (m : Memory) : (fallbackStep embed qe m).1.1 = m := by
  unfold fallbackStep
  by_cases h : embTruthy m.embedding
  · rw [if_pos h]
  · rw [if_neg h]
    cases embed (embedText m) <;> rfl

/-- Score of a memory with a truthy stored embedding. -/
theorem fallbackStep_score_truthy (embed : String → Except Unit (List ℚ))
    (qe : List ℚ) (m : Memory) (h : embTruthy m.embedding = true) :
    (fallbackStep embed qe m).1.2 = cosineSim qe (m.embedding.getD []) := by
  unfold fallbackStep
  rw [if_pos h]

/-- Score and write-back of a memory embedded on demand successfully. -/
theorem fallbackStep_ok (embed : String → Except Unit (List ℚ))
    (qe : List ℚ) (m : Memory) (e : List ℚ)
    (h : embTruthy m.embedding = false) (he : embed (embedText m) = .ok e) :
    (fallbackStep embed qe m).1.2 = cosineSim qe e
    ∧ (fallbackStep embed qe m).2 = [(m.mid, e)] := by
  unfold fallbackStep
  rw [if_neg (by rw [h]; exact Bool.false_ne_true), he]
  exact ⟨rfl, rfl⟩

/-- Score and write-back of a memory whose on-demand embedding fails. -/
theorem fallbackStep_err (embed : String → Except Unit (List ℚ))
    (qe : List ℚ) (m : Memory)
    (h : embTruthy m.embedding = false) (he : embed (embedText m) = .error ()) :
    (fallbackStep embed qe m).1.2 = 0
    ∧ (fallbackStep embed qe m).2 = [] := by
  unfold fallbackStep
  rw [if_neg (by rw [h]; exact Bool.false_ne_true), he]
  exact ⟨rfl, rfl⟩

/-- Write-back of a memory with a truthy stored embedding. -/
theorem fallbackStep_wb_truthy (embed : String → Except Unit (List ℚ))
    (qe : List ℚ) (m : Memory) (h : embTruthy m.embedding = true) :
    (fallbackStep embed qe m).2 = [] := by
  unfold fallbackStep
  rw [if_pos h]

/-- Shape of a single step's write-back list: empty, or exactly the
successfully computed embedding keyed by the memory's id. -/
theorem fallbackStep_wb_shape (embed : String → Except Unit (List ℚ))
    (qe : List ℚ) (m : Memory) :
    (fallbackStep embed qe m).2 = []
    ∨ ∃ e, embTruthy m.embedding = false ∧ embed (embedText m) = .ok e
        ∧ (fallbackStep embed qe m).2 = [(m.mid, e)] := by
  by_cases h : embTruthy m.embedding
  · exact Or.inl (fallbackStep_wb_truthy embed qe m h)
  · rw [Bool.not_eq_true] at h
    cases he : embed (embedText m) with
    | ok e => exact Or.inr ⟨e, h, rfl, (fallbackStep_ok embed qe m e h he).2⟩
    | error u =>
      cases u
      exact Or.inl (fallbackStep_err embed qe m h he).2

/-- The per-memory effect of replaying a write-back list. -/
def perMemWb (wbs : List (String × List ℚ)) (m : Memory) : Memory :=
  wbs.foldl
    (fun acc wb =>
      if acc.mid = wb.1 then { acc with embedding := some wb.2 } else acc) m

/-- Write-backs act memory-wise. -/
theorem applyWritebacks_map (wbs : List (String × List ℚ))
    (mems : List Memory) :
    applyWritebacks mems wbs = mems.map (perMemWb wbs) := by
  induction wbs generalizing mems with
  | nil =>
    show mems = mems.map fun m => m
    rw [List.map_id' mems]
  | cons wb rest ih =>
    show rest.foldl applyWb (applyWb mems wb) = _
    have hfold : rest.foldl applyWb (applyWb mems wb)
        = applyWritebacks (applyWb mems wb) rest := rfl
    rw [hfold, ih (applyWb mems wb)]
    unfold applyWb
    rw [List.map_map]
    rfl

/-- Replaying write-backs never changes a memory's id. -/
theorem perMemWb_mid (wbs : List (String × List ℚ)) (m : Memory) :
    (perMemWb wbs m).mid = m.mid := by
  induction wbs generalizing m with
  | nil => rfl
  | cons wb rest ih =>
    show (perMemWb rest (if m.mid = wb.1 then
      { m with embedding := some wb.2 } else m)).mid = m.mid
    by_cases h : m.mid = wb.1
    · rw [if_pos h, ih]
    · rw [if_neg h, ih]

/-- A memory matched by no write-back is left unchanged. -/
theorem perMemWb_no_match (wbs : List (String × List ℚ)) (m : Memory)
    (h : ∀ wb ∈ wbs, wb.1 ≠ m.mid) : perMemWb wbs m = m := by
  induction wbs with
  | nil => rfl
  | cons wb rest ih =>
    show perMemWb rest (if m.mid = wb.1 then
      { m with embedding := some wb.2 } else m) = m
    rw [if_neg fun hc => h wb (by simp) hc.symm]
    exact ih fun w hw => h w (by simp [hw])

/-- Replaying write-backs that all carry the value a memory already stores
leaves it unchanged. -/
theorem perMemWb_idem (wbs : List (String × List ℚ)) (m : Memory)
    (e : List ℚ) (hall : ∀ wb ∈ wbs, wb.1 = m.mid → wb.2 = e)
    (hemb : m.embedding = some e) : perMemWb wbs m = m := by
  induction wbs with
  | nil => rfl
  | cons wb rest ih =>
    show perMemWb rest (if m.mid = wb.1 then
      { m with embedding := some wb.2 } else m) = m
    by_cases h : m.mid = wb.1
    · rw [if_pos h]
      have hv : wb.2 = e := hall wb (by simp) h.symm
      have hm : ({ m with embedding := some wb.2 } : Memory) = m := by
        rw [hv, ← hemb]
      rw [hm]
      exact ih fun w hw => hall w (by simp [hw])
    · rw [if_neg h]
      exact ih fun w hw => hall w (by simp [hw])

/-- When every write-back matching a memory's id carries the same embedding
and one such write-back exists, the replay stores exactly that embedding. -/
theorem perMemWb_eval (wbs : List (String × List ℚ)) (m : Memory)
    (e : List ℚ) (hall : ∀ wb ∈ wbs, wb.1 = m.mid → wb.2 = e)
    (hmem : (m.mid, e) ∈ wbs) :
    perMemWb wbs m = { m with embedding := some e } := by
  induction wbs with
  | nil => exact absurd hmem (by simp)
  | cons wb rest ih =>
    show perMemWb rest (if m.mid = wb.1 then
      { m with embedding := some wb.2 } else m) = _
    by_cases h : m.mid = wb.1
    · rw [if_pos h]
      have hv : wb.2 = e := hall wb (by simp) h.symm
      rw [hv]
      exact perMemWb_idem rest { m with embedding := some e } e
        (fun w hw hid => hall w (by simp [hw]) hid) rfl
    · rw [if_neg h]
      refine ih (fun w hw => hall w (by simp [hw])) ?_
      rcases List.mem_cons.mp hmem with hc | hc
      · exact absurd (show m.mid = wb.1 from congrArg Prod.fst hc) h
      · exact hc

/-- Two scored rows agree on memory id and score. -/
def idScoreRel (a b : Memory × ℝ) : Prop := a.1.mid = b.1.mid ∧ a.2 = b.2

/-- Ordered insertion respects row-wise id/score agreement, because the
sort order only reads the score. -/
theorem orderedInsert_idScoreRel (a b : Memory × ℝ)
    (l l' : List (Memory × ℝ)) (hab : idScoreRel a b)
    (h : List.Forall₂ idScoreRel l l') :
    List.Forall₂ idScoreRel (l.orderedInsert (descR Prod.snd) a)
      (l'.orderedInsert (descR Prod.snd) b) := by
  induction h with
  | nil => exact List.Forall₂.cons hab List.Forall₂.nil
  | @cons x y xs ys hxy htail ih =>
    by_cases hc : descR Prod.snd a x
    · have hc' : descR Prod.snd b y := by
        unfold descR at hc ⊢
        rw [← hxy.2, ← hab.2]
        exact hc
      rw [List.orderedInsert, if_pos hc, List.orderedInsert, if_pos hc']
      exact List.Forall₂.cons hab (List.Forall₂.cons hxy htail)
    · have hc' : ¬ descR Prod.snd b y := by
        unfold descR at hc ⊢
        rw [← hxy.2, ← hab.2]
        exact hc
      rw [List.orderedInsert, if_neg hc, List.orderedInsert, if_neg hc']
      exact List.Forall₂.cons hxy ih

/-- The stable sort respects row-wise id/score agreement. -/
theorem insertionSort_idScoreRel (l l' : List (Memory × ℝ))
    (h : List.Forall₂ idScoreRel l l') :
    List.Forall₂ idScoreRel (l.insertionSort (descR Prod.snd))
      (l'.insertionSort (descR Prod.snd)) := by
  induction h with
  | nil => exact List.Forall₂.nil
  | @cons x y xs ys hxy htail ih =>
    rw [List.insertionSort, List.insertionSort]
    exact orderedInsert_idScoreRel x y _ _ hxy ih

/-- Row-wise id/score agreement gives equal (id, score) projections. -/
theorem idScoreRel_map_eq (l l' : List (Memory × ℝ))
    (h : List.Forall₂ idScoreRel l l') :
    l.map (fun p => (p.1.mid, p.2)) = l'.map (fun p => (p.1.mid, p.2)) := by
  induction h with
  | nil => rfl
  | @cons x y xs ys hxy htail ih =>
    rw [List.map_cons, List.map_cons, ih, hxy.1, hxy.2]

/-- Mapping two pointwise-related functions gives Forall₂-related lists. -/
theorem forall₂_map_pair {α : Type} (R : Memory × ℝ → Memory × ℝ → Prop)
    (l : List α) (f g : α → Memory × ℝ)
    (h : ∀ x ∈ l, R (f x) (g x)) :
    List.Forall₂ R (l.map f) (l.map g) := by
  induction l with
  | nil => exact List.Forall₂.nil
  | cons x xs ih =>
    exact List.Forall₂.cons (h x (by simp))
      (ih fun u hu => h u (by simp [hu]))

/-- Every write-back of a fallback pass is the successfully computed
embedding of some scanned memory that lacked a truthy stored one. -/
theorem fallback_wbs_mem (embed : String → Except Unit (List ℚ))
    (qe : List ℚ) (limit : ℕ) (mems : List Memory) (wb : String × List ℚ)
    (hwb : wb ∈ (fallbackMemorySearch embed qe limit mems).2) :
    ∃ m ∈ mems, embTruthy m.embedding = false
      ∧ embed (embedText m) = .ok wb.2 ∧ wb.1 = m.mid := by
  unfold fallbackMemorySearch at hwb
  by_cases he : mems.isEmpty
  · rw [if_pos he] at hwb
    simp at hwb
  · rw [if_neg he] at hwb
    dsimp only at hwb
    rw [List.mem_flatten] at hwb
    obtain ⟨s, hs, hws⟩ := hwb
    obtain ⟨m, hm, rfl⟩ := List.mem_map.mp hs
    rcases fallbackStep_wb_shape embed qe m with h0 | ⟨e, ht, hok, heq⟩
    · rw [h0] at hws
      simp at hws
    · rw [heq, List.mem_singleton] at hws
      subst hws
      exact ⟨m, hm, ht, hok, rfl⟩

/-- Re-scoring a memory after its write-backs have been applied gives the
same score: the stored embedding is exactly the one that was computed. -/
theorem fallbackStep_stable (embed : String → Except Unit (List ℚ))
    (qe : List ℚ) (limit : ℕ) (mems : List Memory)
    (hids : (mems.map Memory.mid).Nodup) (m : Memory) (hm : m ∈ mems) :
    (fallbackStep embed qe
        (perMemWb (fallbackMemorySearch embed qe limit mems).2 m)).1.2
      = (fallbackStep embed qe m).1.2 := by
  have hinj : ∀ x ∈ mems, ∀ y ∈ mems, x.mid = y.mid → x = y := fun x hx y hy =>
    List.inj_on_of_nodup_map hids hx hy
  by_cases ht : embTruthy m.embedding = true
  · have hnm : ∀ wb ∈ (fallbackMemorySearch embed qe limit mems).2,
        wb.1 ≠ m.mid := by
      intro wb hwb hc
      obtain ⟨m', hm', ht', _, hid'⟩ :=
        fallback_wbs_mem embed qe limit mems wb hwb
      have hmm : m' = m := hinj m' hm' m hm (by rw [← hid', hc])
      rw [hmm, ht] at ht'
      exact absurd ht' (by simp)
    rw [perMemWb_no_match _ m hnm]
  · rw [Bool.not_eq_true] at ht
    cases hok : embed (embedText m) with
    | error u =>
      cases u
      have hnm : ∀ wb ∈ (fallbackMemorySearch embed qe limit mems).2,
          wb.1 ≠ m.mid := by
        intro wb hwb hc
        obtain ⟨m', hm', _, hok', hid'⟩ :=
          fallback_wbs_mem embed qe limit mems wb hwb
        have hmm : m' = m := hinj m' hm' m hm (by rw [← hid', hc])
        rw [hmm, hok] at hok'
        exact absurd hok' (by simp)
      rw [perMemWb_no_match _ m hnm]
    | ok e =>
      have hne : mems.isEmpty = false := by
        rw [List.isEmpty_eq_false]
        intro h0
        rw [h0] at hm
        simp at hm
      have hmem : ((m.mid, e) : String × List ℚ)
          ∈ (fallbackMemorySearch embed qe limit mems).2 := by
        unfold fallbackMemorySearch
        rw [if_neg (by rw [hne]; exact Bool.false_ne_true)]
        dsimp only
        rw [List.mem_flatten]
        exact ⟨(fallbackStep embed qe m).2, List.mem_map.mpr ⟨m, hm, rfl⟩,
          by rw [(fallbackStep_ok embed qe m e ht hok).2]; simp⟩
      have hall : ∀ wb ∈ (fallbackMemorySearch embed qe limit mems).2,
          wb.1 = m.mid → wb.2 = e := by
        intro wb hwb hc
        obtain ⟨m', hm', _, hok', hid'⟩ :=
          fallback_wbs_mem embed qe limit mems wb hwb
        have hmm : m' = m := hinj m' hm' m hm (by rw [← hid', hc])
        rw [hmm, hok] at hok'
        exact (Except.ok.inj hok').symm
      rw [perMemWb_eval _ m e hall hmem]
      by_cases hee : e.isEmpty = true
      · have ht2 : embTruthy ({ m with embedding := some e } : Memory).embedding
            = false := by
          show (!e.isEmpty) = false
          rw [hee]
          rfl
        rw [(fallbackStep_ok embed qe _ e ht2 hok).1,
          (fallbackStep_ok embed qe m e ht hok).1]
      · rw [Bool.not_eq_true] at hee
        have ht2 : embTruthy ({ m with embedding := some e } : Memory).embedding
            = true := by
          show (!e.isEmpty) = true
          rw [hee]
          rfl
        rw [fallbackStep_score_truthy embed qe _ ht2,
          (fallbackStep_ok embed qe m e ht hok).1]
        rfl

/-- Unfolded form of the fallback search on a non-empty memory list. -/
theorem fallbackMemorySearch_nonempty (embed : String → Except Unit (List ℚ))
    (qe : List ℚ) (limit : ℕ) (ms : List Memory) (h : ms.isEmpty = false) :
    fallbackMemorySearch embed qe limit ms
      = ((((ms.map fun m => (fallbackStep embed qe m).1).insertionSort
            (descR Prod.snd)).take limit, ms.length),
         (ms.map fun m => (fallbackStep embed qe m).2).flatten) := by
  unfold fallbackMemorySearch
  rw [if_neg (by rw [h]; exact Bool.false_ne_true)]

/-- Claim C2: the full-scan fallback reports the total memory count, keeps
every memory (scoring failures as 0 rather than dropping them), scores each
memory by cosine similarity of the query with its stored embedding when
truthy and otherwise with one computed on demand, returns the top limit
sorted by score descending, records a write-back for every embedding it
computed, and returns the same ids, scores and ordering when re-run on the
store state produced by those write-backs. -/
theorem fallback_memory_search_spec (embed : String → Except Unit (List ℚ))
    (qe : List ℚ) (limit : ℕ) (mems : List Memory)
    (hids : (mems.map Memory.mid).Nodup) :
    (fallbackMemorySearch embed qe limit mems).1.2 = mems.length
    ∧ (fallbackMemorySearch embed qe limit mems).1.1.length
        = min limit mems.length
    ∧ List.Sorted (descR Prod.snd)
        (fallbackMemorySearch embed qe limit mems).1.1
    ∧ (∀ p ∈ (fallbackMemorySearch embed qe limit mems).1.1,
        p.1 ∈ mems
        ∧ (embTruthy p.1.embedding = true →
            p.2 = cosineSim qe (p.1.embedding.getD []))
        ∧ (embTruthy p.1.embedding = false →
            (∀ e, embed (embedText p.1) = .ok e → p.2 = cosineSim qe e)
            ∧ (embed (embedText p.1) = .error () → p.2 = 0)))
    ∧ (mems.length ≤ limit → ∀ m ∈ mems,
        ∃ s, (m, s) ∈ (fallbackMemorySearch embed qe limit mems).1.1)
    ∧ (∀ m ∈ mems, embTruthy m.embedding = false →
        ∀ e, embed (embedText m) = .ok e →
          (m.mid, e) ∈ (fallbackMemorySearch embed qe limit mems).2)
    ∧ (fallbackMemorySearch embed qe limit
          (applyWritebacks mems
            (fallbackMemorySearch embed qe limit mems).2)).1.1.map
            (fun p => (p.1.mid, p.2))
        = (fallbackMemorySearch embed qe limit mems).1.1.map
            (fun p => (p.1.mid, p.2)) := by
  by_cases hemp : mems.isEmpty = true
  · have hm0 : mems = [] := List.isEmpty_iff.mp hemp
    subst hm0
    refine ⟨rfl, by simp [fallbackMemorySearch], ?_, ?_, ?_, ?_, rfl⟩
    · show List.Sorted (descR Prod.snd) []
      exact List.sorted_nil
    · intro p hp
      exact absurd hp (by simp [fallbackMemorySearch])
    · intro _ m hm
      exact absurd hm (by simp)
    · intro m hm
      exact absurd hm (by simp)
  · rw [Bool.not_eq_true] at hemp
    have hrw := fallbackMemorySearch_nonempty embed qe limit mems hemp
    refine ⟨by rw [hrw], ?_, ?_, ?_, ?_, ?_, ?_⟩
    · rw [hrw]
      show (List.take limit _).length = _
      rw [List.length_take, List.length_insertionSort, List.length_map]
    · rw [hrw]
      exact sorted_take_sort _ _ _
    · rw [hrw]
      intro p hp
      have hp2 := mem_of_mem_take_sort (descR Prod.snd) _ _ _ hp
      obtain ⟨m, hm, heq⟩ := List.mem_map.mp hp2
      have hfst : p.1 = m := by rw [← heq, fallbackStep_fst]
      have hsnd : p.2 = (fallbackStep embed qe m).1.2 := by rw [heq]
      refine ⟨hfst.symm ▸ hm, ?_, ?_⟩
      · intro ht
        rw [hsnd, hfst]
        exact fallbackStep_score_truthy embed qe m (hfst ▸ ht)
      · intro ht
        constructor
        · intro e hok
          rw [hsnd]
          exact (fallbackStep_ok embed qe m e (hfst ▸ ht) (hfst ▸ hok)).1
        · intro herr
          rw [hsnd]
          exact (fallbackStep_err embed qe m (hfst ▸ ht) (hfst ▸ herr)).1
    · rw [hrw]
      intro hlim m hm
      refine ⟨(fallbackStep embed qe m).1.2, ?_⟩
      have hall : ((mems.map fun m => (fallbackStep embed qe m).1).insertionSort
          (descR Prod.snd)).length ≤ limit := by
        rw [List.length_insertionSort, List.length_map]
        exact hlim
      show ((m, (fallbackStep embed qe m).1.2) : Memory × ℝ) ∈ List.take limit _
      rw [List.take_of_length_le hall]
      have hmem : (fallbackStep embed qe m).1
          ∈ (mems.map fun m => (fallbackStep embed qe m).1).insertionSort
            (descR Prod.snd) := by
        rw [(List.perm_insertionSort (descR Prod.snd) _).mem_iff]
        exact List.mem_map.mpr ⟨m, hm, rfl⟩
      have heta : ((m, (fallbackStep embed qe m).1.2) : Memory × ℝ)
          = (fallbackStep embed qe m).1 := by
        have h1 := fallbackStep_fst embed qe m
        calc ((m, (fallbackStep embed qe m).1.2) : Memory × ℝ)
            = ((fallbackStep embed qe m).1.1, (fallbackStep embed qe m).1.2) := by
              rw [h1]
          _ = (fallbackStep embed qe m).1 := rfl
      rw [heta]
      exact hmem
    · rw [hrw]
      intro m hm ht e hok
      show (m.mid, e) ∈ (mems.map fun m => (fallbackStep embed qe m).2).flatten
      rw [List.mem_flatten]
      exact ⟨(fallbackStep embed qe m).2, List.mem_map.mpr ⟨m, hm, rfl⟩,
        by rw [(fallbackStep_ok embed qe m e ht hok).2]; simp⟩
    · rw [applyWritebacks_map]
      have hemp2 : (mems.map
          (perMemWb (fallbackMemorySearch embed qe limit mems).2)).isEmpty
          = false := by
        cases mems with
        | nil => simp at hemp
        | cons a l => rfl
      rw [fallbackMemorySearch_nonempty embed qe limit _ hemp2]
      conv_rhs => rw [hrw]
      dsimp only
      apply idScoreRel_map_eq
      apply List.forall₂_take
      apply insertionSort_idScoreRel
      rw [List.map_map]
      apply forall₂_map_pair
      intro m hm
      constructor
      · show ((fallbackStep embed qe
            (perMemWb (fallbackMemorySearch embed qe limit mems).2 m)).1).1.mid
          = ((fallbackStep embed qe m).1).1.mid
        rw [fallbackStep_fst, fallbackStep_fst, perMemWb_mid]
      · exact fallbackStep_stable embed qe limit mems hids m hm

/-- Witness for the C2 theorem at a concrete two-memory store. -/
theorem fallback_memory_search_spec_witness :
    (([{ mid := "a", embedding := some [1, 0] },
       { mid := "b", content := some "y" }] : List Memory).map
        Memory.mid).Nodup
    ∧ (fallbackMemorySearch (fun _ => .ok [1, 0]) [1, 0] 5
        [{ mid := "a", embedding := some [1, 0] },
         { mid := "b", content := some "y" }]).1.2 = 2 :=
  ⟨by decide,
   (fallback_memory_search_spec (fun _ => .ok [1, 0]) [1, 0] 5
      [{ mid := "a", embedding := some [1, 0] },
       { mid := "b", content := some "y" }] (by decide)).1⟩

/-! ### Hybrid search lemmas -/

/-- Vector score of a node id among the fetched vector candidates, 0 when
absent. -/
noncomputable def vScoreOf (vres : List (GNode × ℝ)) (i : String) : ℝ :=
  ((vres.find? fun p => p.1.nid = i).map Prod.snd).getD 0

/-- Text score of a node id among the fetched full-text candidates, 0 when
absent. -/
noncomputable def tScoreOf (tres : List (GNode × ℝ)) (i : String) : ℝ :=
  ((tres.find? fun p => p.1.nid = i).map Prod.snd).getD 0

/-- Building a dictionary from rows with fresh, duplicate-free keys appends
them in order. -/
theorem dict_build {τ σ : Type} (f : τ → String) (g : τ → σ) (l : List τ)
    (d : List (String × σ)) (hnd : (l.map f).Nodup)
    (hdisj : ∀ x ∈ l, f x ∉ d.map Prod.fst) :
    l.foldl (fun c p => dictInsert c (f p) (g p)) d
      = d ++ l.map fun p => (f p, g p) := by
  induction l generalizing d with
  | nil => simp
  | cons x xs ih =>
    rw [List.foldl_cons]
    have hx : f x ∉ d.map Prod.fst := hdisj x (by simp)
    have hany : (d.any fun p => decide (p.1 = f x)) = false := by
      simp only [List.any_eq_false, decide_eq_true_eq]
      intro p hp hpk
      exact hx (List.mem_map.mpr ⟨p, hp, hpk⟩)
    have hins : dictInsert d (f x) (g x) = d ++ [(f x, g x)] := by
      unfold dictInsert
      rw [hany]
      simp
    rw [hins]
    simp only [List.map_cons, List.nodup_cons] at hnd
    rw [ih (d ++ [(f x, g x)]) hnd.2 ?_]
    · simp
    · intro u hu
      rw [List.map_append]
      intro hmem
      rcases List.mem_append.mp hmem with h | h
      · exact hdisj u (by simp [hu]) h
      · simp only [List.map_cons, List.map_nil, List.mem_singleton] at h
        exact hnd.1 (h ▸ List.mem_map.mpr ⟨u, hu, rfl⟩)

/-- The add-text-only-rows fold appends exactly the rows whose key is not
already present in the accumulator, given duplicate-free row keys. -/
theorem textonly_fold {σ ρ : Type} (tent : σ → ρ)
    (kps : List (String × σ)) (c : List (String × ρ))
    (hnd : (kps.map Prod.fst).Nodup) :
    kps.foldl
      (fun c kp => if c.any fun q => q.1 = kp.1 then c
        else c ++ [(kp.1, tent kp.2)]) c
      = c ++ (kps.filter fun kp =>
          decide (kp.1 ∉ c.map Prod.fst)).map fun kp => (kp.1, tent kp.2) := by
  induction kps generalizing c with
  | nil => simp
  | cons kp rest ih =>
    rw [List.foldl_cons]
    simp only [List.map_cons, List.nodup_cons] at hnd
    by_cases hin : kp.1 ∈ c.map Prod.fst
    · have hany : (c.any fun q => decide (q.1 = kp.1)) = true := by
        simp only [List.any_eq_true, decide_eq_true_eq]
        obtain ⟨p, hp, hpk⟩ := List.mem_map.mp hin
        exact ⟨p, hp, hpk⟩
      rw [if_pos hany, ih c hnd.2]
      congr 1
      rw [List.filter_cons]
      rw [if_neg (by simp [hin])]
    · have hany : (c.any fun q => decide (q.1 = kp.1)) = false := by
        simp only [List.any_eq_false, decide_eq_true_eq]
        intro p hp hpk
        exact hin (List.mem_map.mpr ⟨p, hp, hpk⟩)
      rw [hany]
      simp only [Bool.false_eq_true, if_false]
      rw [ih (c ++ [(kp.1, tent kp.2)]) hnd.2]
      have hfeq : (rest.filter fun u =>
          decide (u.1 ∉ (c ++ [(kp.1, tent kp.2)]).map Prod.fst))
          = rest.filter fun u => decide (u.1 ∉ c.map Prod.fst) := by
        apply List.filter_congr
        intro u hu
        simp only [decide_eq_decide, List.map_append, List.map_cons,
          List.map_nil, List.mem_append, List.mem_singleton]
        constructor
        · intro hc hmem
          exact hc (Or.inl hmem)
        · intro hc hmem
          rcases hmem with h | h
          · exact hc h
          · exact hnd.1 (h ▸ List.mem_map.mpr ⟨u, hu, rfl⟩)
      rw [hfeq, List.filter_cons, if_pos (by simp [hin])]
      simp

/-- find? by key hits exactly the present row when keys are
duplicate-free. -/
theorem find_self_nodup {τ : Type} (f : τ → String) (l : List τ)
    (hnd : (l.map f).Nodup) (x : τ) (hx : x ∈ l) :
    l.find? (fun q => f q = f x) = some x := by
  induction l with
  | nil => exact absurd hx (by simp)
  | cons y rest ih =>
    simp only [List.map_cons, List.nodup_cons] at hnd
    rcases List.mem_cons.mp hx with h | h
    · subst h
      rw [List.find?_cons_of_pos _ (by simp)]
    · by_cases hf : f y = f x
      · exact absurd (hf ▸ List.mem_map.mpr ⟨x, h, rfl⟩) hnd.1
      · rw [List.find?_cons_of_neg _ (by simpa using hf)]
        exact ih hnd.2 h

/-- Looking a node id up in the dictionary built from the text rows finds
exactly the first row with that id. -/
theorem dictGet_map_pair (T : List (GNode × ℝ)) (i : String) :
    dictGet (T.map fun q => (q.1.nid, q)) i
      = T.find? fun q => q.1.nid = i := by
  induction T with
  | nil => rfl
  | cons q rest ih =>
    by_cases hq : q.1.nid = i
    · unfold dictGet
      rw [List.map_cons, List.find?_cons_of_pos _ (by simpa using hq),
        List.find?_cons_of_pos _ (by simpa using hq)]
      rfl
    · unfold dictGet at ih ⊢
      rw [List.map_cons, List.find?_cons_of_neg _ (by simpa using hq),
        List.find?_cons_of_neg _ (by simpa using hq)]
      exact ih

/-- Claim C5: hybrid_search returns the union of the 2*limit vector
candidates and the full-text candidates, each entry scored
vectorWeight*vectorScore + textWeight*textScore with a missing score
defaulting to 0, sorted by combined score descending and truncated to
limit. -/
theorem hybrid_search_spec (vq tq : ℕ → List (GNode × ℝ)) (limit : ℕ)
    (tw vw : ℝ)
    (hvnd : ((vq (limit * 2)).map fun p => p.1.nid).Nodup)
    (htnd : ((tq (limit * 2)).map fun p => p.1.nid).Nodup) :
    (hybridSearch vq tq limit tw vw).length
        = min limit ((vq (limit * 2)).length
            + ((tq (limit * 2)).filter fun p =>
                decide (p.1.nid ∉ (vq (limit * 2)).map fun q => q.1.nid)).length)
    ∧ List.Sorted (descR HEntry.combinedScore) (hybridSearch vq tq limit tw vw)
    ∧ ∀ h ∈ hybridSearch vq tq limit tw vw,
        (h.node.nid ∈ ((vq (limit * 2)).map fun p => p.1.nid)
          ∨ h.node.nid ∈ ((tq (limit * 2)).map fun p => p.1.nid))
        ∧ h.combinedScore
            = vw * vScoreOf (vq (limit * 2)) h.node.nid
              + tw * tScoreOf (tq (limit * 2)) h.node.nid := by
  have htd : (tq (limit * 2)).foldl (fun d p => dictInsert d p.1.nid p) []
      = (tq (limit * 2)).map fun p => (p.1.nid, p) := by
    have h0 := dict_build (fun p => p.1.nid) (fun p => p) (tq (limit * 2)) []
      htnd (by simp)
    simpa using h0
  have hcomb : (vq (limit * 2)).foldl
      (fun c p =>
        dictInsert c p.1.nid
          ⟨p.1, ((dictGet ((tq (limit * 2)).map fun q => (q.1.nid, q))
              p.1.nid).map Prod.snd).getD 0, p.2,
           vw * p.2 + tw * (((dictGet ((tq (limit * 2)).map fun q =>
              (q.1.nid, q)) p.1.nid).map Prod.snd).getD 0)⟩) []
      = (vq (limit * 2)).map fun p =>
          (p.1.nid,
           (⟨p.1, ((dictGet ((tq (limit * 2)).map fun q => (q.1.nid, q))
              p.1.nid).map Prod.snd).getD 0, p.2,
            vw * p.2 + tw * (((dictGet ((tq (limit * 2)).map fun q =>
              (q.1.nid, q)) p.1.nid).map Prod.snd).getD 0)⟩ : HEntry)) := by
    have h0 := dict_build (fun p => p.1.nid)
      (fun p =>
        (⟨p.1, ((dictGet ((tq (limit * 2)).map fun q => (q.1.nid, q))
            p.1.nid).map Prod.snd).getD 0, p.2,
          vw * p.2 + tw * (((dictGet ((tq (limit * 2)).map fun q =>
            (q.1.nid, q)) p.1.nid).map Prod.snd).getD 0)⟩ : HEntry))
      (vq (limit * 2)) [] hvnd (by simp)
    simpa using h0
  have hkeysv : ((vq (limit * 2)).map fun p =>
      (p.1.nid,
       (⟨p.1, ((dictGet ((tq (limit * 2)).map fun q => (q.1.nid, q))
          p.1.nid).map Prod.snd).getD 0, p.2,
        vw * p.2 + tw * (((dictGet ((tq (limit * 2)).map fun q =>
          (q.1.nid, q)) p.1.nid).map Prod.snd).getD 0)⟩ : HEntry))).map
        Prod.fst = (vq (limit * 2)).map fun p => p.1.nid := by
    rw [List.map_map]
    rfl
  have hto := textonly_fold
    (fun q : GNode × ℝ => (⟨q.1, q.2, 0, tw * q.2⟩ : HEntry))
    ((tq (limit * 2)).map fun q => (q.1.nid, q))
    ((vq (limit * 2)).map fun p =>
      (p.1.nid,
       (⟨p.1, ((dictGet ((tq (limit * 2)).map fun q => (q.1.nid, q))
          p.1.nid).map Prod.snd).getD 0, p.2,
        vw * p.2 + tw * (((dictGet ((tq (limit * 2)).map fun q =>
          (q.1.nid, q)) p.1.nid).map Prod.snd).getD 0)⟩ : HEntry)))
    (by rw [List.map_map]; exact htnd)
  simp only [] at hto
  unfold hybridSearch
  dsimp only
  rw [htd, hcomb, hto]
  simp only [hkeysv]
  refine ⟨?_, sorted_take_sort _ _ _, ?_⟩
  · rw [List.length_take, List.length_insertionSort, List.length_map,
      List.length_append, List.length_map, List.length_map]
    congr 1
    congr 1
    rw [List.filter_map]
    rw [List.length_map]
    rfl
  · intro h hh
    have hh2 := mem_of_mem_take_sort (descR HEntry.combinedScore) _ _ _ hh
    obtain ⟨kp, hkp, hkpe⟩ := List.mem_map.mp hh2
    rcases List.mem_append.mp hkp with hv | ht
    · obtain ⟨p, hp, hpe⟩ := List.mem_map.mp hv
      have hnode : h.node = p.1 := by
        rw [← hkpe, ← hpe]
      have hvs : vScoreOf (vq (limit * 2)) p.1.nid = p.2 := by
        unfold vScoreOf
        rw [find_self_nodup (fun q => q.1.nid) (vq (limit * 2)) hvnd p hp]
        rfl
      have hts : tScoreOf (tq (limit * 2)) p.1.nid
          = ((dictGet ((tq (limit * 2)).map fun q => (q.1.nid, q))
              p.1.nid).map Prod.snd).getD 0 := by
        unfold tScoreOf
        rw [dictGet_map_pair]
      refine ⟨Or.inl (by rw [hnode]; exact List.mem_map.mpr ⟨p, hp, rfl⟩), ?_⟩
      rw [hnode, hvs, hts]
      rw [← hkpe, ← hpe]
    · obtain ⟨q, hq, hqe⟩ := List.mem_map.mp ht
      have hqT : q ∈ (((tq (limit * 2)).map fun r => (r.1.nid, r)).filter
          fun kp => decide (kp.1 ∉ (vq (limit * 2)).map fun p => p.1.nid)) := hq
      rw [List.filter_map] at hqT
      obtain ⟨r, hr, hre⟩ := List.mem_map.mp hqT
      have hrT : r ∈ (tq (limit * 2)) := List.mem_of_mem_filter hr
      have hrnot : r.1.nid ∉ (vq (limit * 2)).map fun p => p.1.nid := by
        have := (List.mem_filter.mp hr).2
        simpa using this
      have hnode : h.node = r.1 := by
        rw [← hkpe, ← hqe, ← hre]
      have hvs : vScoreOf (vq (limit * 2)) r.1.nid = 0 := by
        unfold vScoreOf
        rw [List.find?_eq_none.mpr]
        · rfl
        · intro u hu
          simp only [decide_eq_true_eq]
          intro hc
          exact hrnot (hc ▸ List.mem_map.mpr ⟨u, hu, rfl⟩)
      have hts : tScoreOf (tq (limit * 2)) r.1.nid = r.2 := by
        unfold tScoreOf
        rw [find_self_nodup (fun q => q.1.nid) (tq (limit * 2)) htnd r hrT]
        rfl
      refine ⟨Or.inr (by rw [hnode]; exact List.mem_map.mpr ⟨r, hrT, rfl⟩), ?_⟩
      rw [hnode, hvs, hts]
      rw [← hkpe, ← hqe, ← hre]
      show tw * r.2 = vw * 0 + tw * r.2
      rw [mul_zero, zero_add]

/-- Witness for the C5 theorem: one vector-only hit and one text-only
hit. -/
theorem hybrid_search_spec_witness :
    ((((fun _ : ℕ => [((⟨"n1", ""⟩ : GNode), (1 : ℝ))]) (2 * 2)).map
        fun p => p.1.nid).Nodup)
    ∧ ((((fun _ : ℕ => [((⟨"n2", ""⟩ : GNode), (1 : ℝ) / 2)]) (2 * 2)).map
        fun p => p.1.nid).Nodup)
    ∧ List.Sorted (descR HEntry.combinedScore)
        (hybridSearch (fun _ => [(⟨"n1", ""⟩, 1)])
          (fun _ => [(⟨"n2", ""⟩, 1 / 2)]) 2 (3 / 10) (7 / 10)) :=
  ⟨by decide, by decide,
   (hybrid_search_spec (fun _ => [(⟨"n1", ""⟩, 1)])
      (fun _ => [(⟨"n2", ""⟩, 1 / 2)]) 2 (3 / 10) (7 / 10)
      (by decide) (by decide)).2.1⟩

end DeskAI
